import Mathlib

/-!
Pattern: a verification development for `src/pattern.js`

The library compiles a template string such as `Hello, {name}!` into a sequence of
symbols (literals and substitutions) and renders it against a table.

Embedding:

* A JavaScript string is a finite sequence of UTF-16 code units; `pattern.charAt(i)`
  is the code unit at index `i`.  We model a string as `List CodeUnit` with
  `CodeUnit = Nat`.  The scanner only ever compares a unit with `{` (123) and `}` (125).
* `throw new SyntaxError(message + ' at ' + at)` is modelled by `Except.error` carrying
  the two operands `message` and `at` of that concatenation.
* The `for` loops are modelled by recursion on the list of elements still to be read;
  the mutable loop variables are passed along explicitly.
* A table is modelled by the result of the property lookup `table[key]` for every key
  (`Table`).  Where a claim is about what `build` does on any argument, the argument is
  modelled in full (`Raw.TableArg`): it may be `undefined` or `null`, lookups read own
  properties and then the prototype chain, and the conversion of a value may throw.
-/

set_option autoImplicit false

namespace Pattern

/-! ## Strings -/

/-- A UTF-16 code unit. -/
abbrev CodeUnit := Nat

/-- A JavaScript string: its sequence of code units. -/
abbrev JSString := List CodeUnit

/-- The code unit of an opening brace. -/
def lbrace : CodeUnit := 123

/-- The code unit of a closing brace. -/
def rbrace : CodeUnit := 125

/-- UTF-16 encoding of one Unicode scalar value. -/
def utf16 (c : Char) : List CodeUnit :=
  if c.toNat < 65536 then [c.toNat]
  else [55296 + (c.toNat - 65536) / 1024, 56320 + (c.toNat - 65536) % 1024]

/-- The JavaScript string denoted by a string literal. -/
def js (s : String) : JSString := s.toList.flatMap utf16

/-! ## Errors (`src/pattern.js` lines 4-10) -/

def nested_opening_brace_error_message : String := "Nested opening brace"
def unmatched_closing_brace_error_message : String := "Unmatched closing brace"
def unclosed_opening_brace_error_message : String := "Unclosed opening brace"

/-- The exception `new SyntaxError(message + ' at ' + pos)`, kept as the pair of the
two operands of the concatenation. -/
structure SyntaxError where
  message : String
  pos : Nat
deriving DecidableEq, Repr

/-- The function `_syntax_error(message, at)`: always throws. -/
def _syntax_error {α : Type} (message : String) (pos : Nat) : Except SyntaxError α :=
  Except.error ⟨message, pos⟩

deriving instance DecidableEq for Except

/-! ## Symbols (lines 16-77) -/

/-- Values a table lookup can produce: `undefined` (in particular for a key the table
does not define), `null`, booleans, strings, and any other value (a number, an object)
whose conversion to a string completes, represented by the string `text` it converts
to.  Values whose conversion throws are not represented. -/
inductive Value where
  | undefined
  | null
  | bool (b : Bool)
  | str (s : JSString)
  | other (text : JSString)
deriving DecidableEq, Repr

/-- The string form of a value, as produced by `'' + v`. -/
def Value.toStr : Value → JSString
  | Value.undefined => js "undefined"
  | Value.null => js "null"
  | Value.bool true => js "true"
  | Value.bool false => js "false"
  | Value.str s => s
  | Value.other text => text

/-- A table, given by the result of `symbol_table[key]` for every key. -/
abbrev Table := JSString → Value

/-- The lookups of a table in which no identifier is found, neither as an own property
nor on a prototype chain (a table made by `Object.create(null)`).  The literal `{}`,
which inherits the properties of `Object.prototype`, is `Raw.emptyObject` below. -/
def emptyTable : Table := fun _ => Value.undefined

/-- The lookups of a table that has exactly the listed own properties and inherits none
(a table made by `Object.create(null)` and filled with the entries); for a repeated key
the last entry wins, as in an object literal. -/
def tableOf (entries : List (JSString × Value)) : Table := fun key =>
  match entries.reverse.find? (fun e => decide (e.1 = key)) with
  | some e => e.2
  | none => Value.undefined

/-- The two classes `Literal` and `Substitution` implementing `Symbol`. -/
inductive Symbol where
  | Literal (value : JSString)
  | Substitution (key : JSString)
deriving DecidableEq, Repr

/-- The method `getValue(symbol_table)` of both classes. -/
def Symbol.getValue : Symbol → Table → Value
  | Symbol.Literal value, _ => Value.str value
  | Symbol.Substitution key, symbol_table => symbol_table key

/-- The text a symbol carries: the value of a literal, the key of a substitution. -/
def Symbol.text : Symbol → JSString
  | Symbol.Literal value => value
  | Symbol.Substitution key => key

/-- The function `_newSymbol(value, is_substitution)`. -/
def _newSymbol (value : JSString) (is_substitution : Bool) : Symbol :=
  if is_substitution then Symbol.Substitution value else Symbol.Literal value

/-! ## Scanner: `_convert_to_list` (lines 93-180) -/

/-- A character object `{sid, val, sub}`. -/
structure CharObject where
  sid : Nat
  val : CodeUnit
  sub : Bool
deriving DecidableEq, Repr

/-- The loop variables of `_convert_to_list`. -/
structure ScanState where
  i : Nat
  in_brace : Bool
  symbol_id : Nat
  symbols_list : List CharObject
deriving DecidableEq, Repr

/-- The state before the first iteration (lines 94-114). -/
def scanInit : ScanState := ⟨0, false, 0, []⟩

/-- One iteration of the loop of `_convert_to_list` (lines 115-170) followed by
`i += 1`. -/
def scanStep (s : ScanState) (cur : CodeUnit) : Except SyntaxError ScanState :=
  if cur = lbrace then
    if s.in_brace ≠ false then
      _syntax_error nested_opening_brace_error_message s.i
    else
      Except.ok ⟨s.i + 1, true, s.symbol_id + 1, s.symbols_list⟩
  else if cur = rbrace then
    if s.in_brace ≠ true then
      _syntax_error unmatched_closing_brace_error_message s.i
    else
      Except.ok ⟨s.i + 1, false, s.symbol_id + 1, s.symbols_list⟩
  else
    Except.ok ⟨s.i + 1, s.in_brace, s.symbol_id,
      s.symbols_list ++ [⟨s.symbol_id, cur, s.in_brace⟩]⟩

/-- The loop of `_convert_to_list` over the code units still to be read. -/
def scanLoop : List CodeUnit → ScanState → Except SyntaxError ScanState
  | [], s => Except.ok s
  | cur :: rest, s =>
    match scanStep s cur with
    | Except.error e => Except.error e
    | Except.ok s1 => scanLoop rest s1

/-- The function `_convert_to_list(pattern)`. -/
def _convert_to_list (pattern : JSString) : Except SyntaxError (List CharObject) :=
  match scanLoop pattern scanInit with
  | Except.error e => Except.error e
  | Except.ok s =>
    if s.in_brace ≠ false then
      _syntax_error unclosed_opening_brace_error_message s.i
    else
      Except.ok s.symbols_list

/-! ## Symbol builder: `_compile` (lines 192-262) -/

/-- The function `_at_end_of_symbol(cur, next)`; `next` is `none` when
`char_objects_list[i + 1]` is `undefined`. -/
def _at_end_of_symbol (cur : CharObject) (next : Option CharObject) : Bool :=
  match next with
  | none => true
  | some n => decide (n.sid ≠ cur.sid)

/-- The loop of `_compile` (lines 236-259) over the character objects still to be read,
with the loop variables `string_accumulator` and `retarray`. -/
def compileLoop : List CharObject → JSString → List Symbol → List Symbol
  | [], _, retarray => retarray
  | cur :: rest, string_accumulator, retarray =>
    if _at_end_of_symbol cur rest.head? then
      compileLoop rest [] (retarray ++ [_newSymbol (string_accumulator ++ [cur.val]) cur.sub])
    else
      compileLoop rest (string_accumulator ++ [cur.val]) retarray

/-- The function `_compile(pattern)`; its result is the field `symbols` of
`Pattern(pattern)`. -/
def _compile (pattern : JSString) : Except SyntaxError (List Symbol) :=
  match _convert_to_list pattern with
  | Except.error e => Except.error e
  | Except.ok char_objects_list =>
    if char_objects_list.length = 0 then Except.ok []
    else Except.ok (compileLoop char_objects_list [] [])

/-! ## Renderer: `Pattern.prototype.build` (lines 279-293) -/

/-- The loop of `build` over the symbols still to be read, with the loop variable
`retval`. -/
def buildLoop : List Symbol → Table → JSString → JSString
  | [], _, retval => retval
  | sym :: rest, table, retval => buildLoop rest table (retval ++ (sym.getValue table).toStr)

/-- The method `build(table)` of a pattern whose field `symbols` is given. -/
def build (symbols : List Symbol) (table : Table) : JSString :=
  buildLoop symbols table []

/-- The expression `Pattern(pattern).build(table)`. -/
def patternBuild (pattern : JSString) (table : Table) : Except SyntaxError JSString :=
  match _compile pattern with
  | Except.error e => Except.error e
  | Except.ok symbols => Except.ok (build symbols table)

/-! ## Well-formed patterns -/

/-- A string that contains neither an opening nor a closing brace. -/
def BraceFree (l : JSString) : Prop := lbrace ∉ l ∧ rbrace ∉ l

instance (l : JSString) : Decidable (BraceFree l) :=
  inferInstanceAs (Decidable (lbrace ∉ l ∧ rbrace ∉ l))

/-- The pattern `l0 + "{" + i1 + "}" + l1 + ... + "{" + in + "}" + ln`, given `l0` and
the pairs `(i1, l1), ..., (in, ln)`. -/
def wellFormed (l0 : JSString) (segs : List (JSString × JSString)) : JSString :=
  l0 ++ segs.flatMap (fun seg => lbrace :: seg.1 ++ rbrace :: seg.2)

/-- The sequence `Literal(l0), Substitution(i1), Literal(l1), ..., Substitution(in),
Literal(ln)` with every entry whose text is empty removed. -/
def expectedSymbols (l0 : JSString) (segs : List (JSString × JSString)) : List Symbol :=
  (Symbol.Literal l0 ::
    segs.flatMap (fun seg => [Symbol.Substitution seg.1, Symbol.Literal seg.2])).filter
      (fun sym => decide (sym.text ≠ []))

/-- The subsequence of brace characters of a string. -/
def braces (p : JSString) : List CodeUnit :=
  p.filter (fun c => decide (c = lbrace ∨ c = rbrace))

/-- The character objects of a run of brace-free text read with group id `sid` and
flag `sub`. -/
def tagRun (sid : Nat) (sub : Bool) (l : JSString) : List CharObject :=
  l.map (fun c => ⟨sid, c, sub⟩)

/-- The character objects of the pairs `(i1, l1), ..., (in, ln)` read from group
counter `sid`. -/
def tagSegs : Nat → List (JSString × JSString) → List CharObject
  | _, [] => []
  | sid, seg :: rest =>
    tagRun (sid + 1) true seg.1 ++ (tagRun (sid + 2) false seg.2 ++ tagSegs (sid + 2) rest)

/-- The characters of a string with every `{` and `}` removed. -/
def content (p : JSString) : List CodeUnit :=
  p.filter (fun c => decide (c ≠ lbrace ∧ c ≠ rbrace))

/-- The string `l0 + v1 + l1 + ... + vn + ln`, where `vk` is the string form of the
table's value for `ik` when `ik` is non-empty and the empty string otherwise. -/
def rendered (table : Table) (l0 : JSString) (segs : List (JSString × JSString)) : JSString :=
  l0 ++ segs.flatMap (fun seg => (if seg.1 = [] then [] else (table seg.1).toStr) ++ seg.2)

/-- The concatenation, in order, of each literal's value and of `{` + key + `}` for
each substitution. -/
def unparse (symbols : List Symbol) : JSString :=
  symbols.flatMap (fun sym =>
    match sym with
    | Symbol.Literal value => value
    | Symbol.Substitution key => [lbrace] ++ key ++ [rbrace])

/-- The string with every occurrence of `{}` deleted, reading from left to right. -/
def deleteEmptyPlaceholders : JSString → JSString
  | [] => []
  | [a] => [a]
  | a :: b :: r =>
    if a = lbrace ∧ b = rbrace then deleteEmptyPlaceholders r
    else a :: deleteEmptyPlaceholders (b :: r)

/-- The pattern `l0 {i1} l1 ... {in} ln` without its empty placeholders. -/
def withoutEmpty (l0 : JSString) (segs : List (JSString × JSString)) : JSString :=
  l0 ++ segs.flatMap
    (fun seg => (if seg.1 = [] then [] else [lbrace] ++ seg.1 ++ [rbrace]) ++ seg.2)

/-- The distinct group ids occurring in a tagged sequence. -/
def groupIds (l : List CharObject) : List Nat :=
  (l.map CharObject.sid).dedup

/-- The in-order concatenation of the values of the characters with group id `g`. -/
def groupText (l : List CharObject) (g : Nat) : JSString :=
  (l.filter (fun c => decide (c.sid = g))).map CharObject.val

/-- Whether some character with group id `g` is flagged as placeholder content. -/
def groupFlag (l : List CharObject) (g : Nat) : Bool :=
  (l.filter (fun c => decide (c.sid = g))).any CharObject.sub

/-- The runs of a well-formed pattern after its first literal, each with its group id
and flag, read from group counter `sid`. -/
def runsOfSegs : Nat → List (JSString × JSString) → List (Nat × Bool × JSString)
  | _, [] => []
  | sid, seg :: rest =>
    (sid + 1, true, seg.1) :: (sid + 2, false, seg.2) :: runsOfSegs (sid + 2) rest

/-- The tagged characters of a list of runs. -/
def flatRuns (rs : List (Nat × Bool × JSString)) : List CharObject :=
  rs.flatMap (fun r => tagRun r.1 r.2.1 r.2.2)

/-! ## Rendering against JavaScript objects (lines 37-39, 58-60, 279-293)

`Table` above gives a table by the result of each lookup, for values whose conversion
to a string completes.  The definitions below model what `build` receives in full: the
argument may be `undefined` or `null`, a lookup reads the own properties of the object
and then its prototype chain, and the conversion of a value may throw.  Only data
properties are modelled (no accessor defined by the caller, no proxy). -/

namespace Raw

/-- A property value: a value whose conversion by `'' + v` completes, or one whose
conversion throws (a `Symbol()`, an object whose `toString` throws, an object made by
`Object.create(null)`). -/
inductive JSValue where
  | plain (v : Value)
  | unconvertible
deriving DecidableEq, Repr

/-- The own data properties of one object, in the order written; for a repeated key the
last entry wins, as in an object literal. -/
abbrev Props := List (JSString × JSValue)

/-- The own property `key` of an object, if it has one. -/
def ownProperty : Props → JSString → Option JSValue
  | [], _ => none
  | entry :: rest, key =>
    match ownProperty rest key with
    | some v => some v
    | none => if entry.1 = key then some entry.2 else none

/-- An object, given by its own properties followed by the own properties of each object
on its prototype chain. -/
abbrev JSObject := List Props

/-- The property read `object[key]`: the own property if there is one, else the property
of the nearest prototype that has one, else `undefined`. -/
def propertyGet : JSObject → JSString → JSValue
  | [], _ => JSValue.plain Value.undefined
  | props :: chain, key =>
    match ownProperty props key with
    | some v => v
    | none => propertyGet chain key

/-- What may be passed to `build` as `table`: `undefined` (also when the argument is
left out), `null`, or an object.  Numbers, strings and booleans passed as the table are
not modelled. -/
inductive TableArg where
  | undefined
  | null
  | object (o : JSObject)
deriving DecidableEq, Repr

/-- What `Pattern(pattern).build(table)` may throw: the error of `_compile`, the
`TypeError` of reading a property of `undefined` or `null` (line 59), or what the
conversion of a value to a string throws (line 289). -/
inductive Thrown where
  | compile (e : SyntaxError)
  | typeError
  | conversion
deriving DecidableEq, Repr

/-- The method `getValue(symbol_table)` of both classes. -/
def getValue : Symbol → TableArg → Except Thrown JSValue
  | Symbol.Literal value, _ => Except.ok (JSValue.plain (Value.str value))
  | Symbol.Substitution _, TableArg.undefined => Except.error Thrown.typeError
  | Symbol.Substitution _, TableArg.null => Except.error Thrown.typeError
  | Symbol.Substitution key, TableArg.object o => Except.ok (propertyGet o key)

/-- The conversion of a value to a string in `retval += value`. -/
def toStr : JSValue → Except Thrown JSString
  | JSValue.plain v => Except.ok v.toStr
  | JSValue.unconvertible => Except.error Thrown.conversion

/-- The loop of `build` over the symbols still to be read, with the loop variable
`retval`. -/
def buildLoop : List Symbol → TableArg → JSString → Except Thrown JSString
  | [], _, retval => Except.ok retval
  | sym :: rest, table, retval =>
    match getValue sym table with
    | Except.error e => Except.error e
    | Except.ok v =>
      match toStr v with
      | Except.error e => Except.error e
      | Except.ok s => buildLoop rest table (retval ++ s)

/-- The method `build(table)` of a pattern whose field `symbols` is given. -/
def build (symbols : List Symbol) (table : TableArg) : Except Thrown JSString :=
  buildLoop symbols table []

/-- The expression `Pattern(pattern).build(table)`. -/
def patternBuild (pattern : JSString) (table : TableArg) : Except Thrown JSString :=
  match _compile pattern with
  | Except.error e => Except.error (Thrown.compile e)
  | Except.ok symbols => build symbols table

/-- What a symbol adds to the output of `build` on an object: a literal its text, a
substitution the string form of the property read. -/
def contribution (o : JSObject) : Symbol → JSString
  | Symbol.Literal value => value
  | Symbol.Substitution key =>
    match propertyGet o key with
    | JSValue.plain v => v.toStr
    | JSValue.unconvertible => []

/-- A function of `Object.prototype`, with the string form V8 prints for it. -/
def nativeFunction (name : JSString) : JSValue :=
  JSValue.plain (Value.other (js "function " ++ name ++ js "() \x7b [native code] \x7d"))

/-- The properties of `Object.prototype` as an object literal inherits them (Node.js);
`__proto__` reads as `Object.prototype` itself, whose string form is
`[object Object]`. -/
def objectPrototype : Props :=
  [(js "constructor", nativeFunction (js "Object")),
   (js "__defineGetter__", nativeFunction (js "__defineGetter__")),
   (js "__defineSetter__", nativeFunction (js "__defineSetter__")),
   (js "hasOwnProperty", nativeFunction (js "hasOwnProperty")),
   (js "__lookupGetter__", nativeFunction (js "__lookupGetter__")),
   (js "__lookupSetter__", nativeFunction (js "__lookupSetter__")),
   (js "isPrototypeOf", nativeFunction (js "isPrototypeOf")),
   (js "propertyIsEnumerable", nativeFunction (js "propertyIsEnumerable")),
   (js "toString", nativeFunction (js "toString")),
   (js "valueOf", nativeFunction (js "valueOf")),
   (js "__proto__", JSValue.plain (Value.other (js "[object Object]"))),
   (js "toLocaleString", nativeFunction (js "toLocaleString"))]

/-- The object written as a literal with the given own properties (keys other than
`__proto__`, which a literal does not store as a property). -/
def objectLiteral (own : Props) : JSObject := [own, objectPrototype]

/-- The empty table `{}`. -/
def emptyObject : JSObject := objectLiteral []

end Raw

/-! ## Scanner lemmas -/

theorem scanLoop_nil (s : ScanState) : scanLoop [] s = Except.ok s := rfl

theorem scanLoop_cons_ok {s s1 : ScanState} {c : CodeUnit} (rest : List CodeUnit)
    (h : scanStep s c = Except.ok s1) : scanLoop (c :: rest) s = scanLoop rest s1 := by
  simp [scanLoop, h]

theorem scanLoop_cons_error {s : ScanState} {c : CodeUnit} {e : SyntaxError}
    (rest : List CodeUnit) (h : scanStep s c = Except.error e) :
    scanLoop (c :: rest) s = Except.error e := by
  simp [scanLoop, h]

theorem scanLoop_append_ok {a : List CodeUnit} {s s1 : ScanState} (b : List CodeUnit)
    (h : scanLoop a s = Except.ok s1) : scanLoop (a ++ b) s = scanLoop b s1 := by
  induction a generalizing s with
  | nil => simp [scanLoop] at h; subst h; rfl
  | cons c r ih =>
    cases hs : scanStep s c with
    | error e => rw [scanLoop_cons_error r hs] at h; cases h
    | ok s2 =>
      rw [scanLoop_cons_ok r hs] at h
      rw [List.cons_append, scanLoop_cons_ok (r ++ b) hs]
      exact ih h

theorem scanLoop_append_error {a : List CodeUnit} {s : ScanState} {e : SyntaxError}
    (b : List CodeUnit) (h : scanLoop a s = Except.error e) :
    scanLoop (a ++ b) s = Except.error e := by
  induction a generalizing s with
  | nil => simp [scanLoop] at h
  | cons c r ih =>
    cases hs : scanStep s c with
    | error e1 =>
      rw [scanLoop_cons_error r hs] at h
      rw [List.cons_append, scanLoop_cons_error (r ++ b) hs]; exact h
    | ok s2 =>
      rw [scanLoop_cons_ok r hs] at h
      rw [List.cons_append, scanLoop_cons_ok (r ++ b) hs]
      exact ih h

theorem scanStep_lbrace (s : ScanState) :
    scanStep s lbrace =
      if s.in_brace = true then Except.error ⟨nested_opening_brace_error_message, s.i⟩
      else Except.ok ⟨s.i + 1, true, s.symbol_id + 1, s.symbols_list⟩ := by
  cases h : s.in_brace <;> simp [scanStep, _syntax_error, h]

theorem scanStep_rbrace (s : ScanState) :
    scanStep s rbrace =
      if s.in_brace = true then Except.ok ⟨s.i + 1, false, s.symbol_id + 1, s.symbols_list⟩
      else Except.error ⟨unmatched_closing_brace_error_message, s.i⟩ := by
  cases h : s.in_brace <;> simp [scanStep, _syntax_error, h, lbrace, rbrace]

theorem scanStep_other (s : ScanState) {c : CodeUnit} (h1 : c ≠ lbrace) (h2 : c ≠ rbrace) :
    scanStep s c = Except.ok ⟨s.i + 1, s.in_brace, s.symbol_id,
      s.symbols_list ++ [⟨s.symbol_id, c, s.in_brace⟩]⟩ := by
  simp [scanStep, h1, h2]

/-- Reading a brace-free run appends its tagged characters and changes neither the
flag nor the group counter. -/
theorem scanLoop_braceFree (l : JSString) (s : ScanState) (h : BraceFree l) :
    scanLoop l s = Except.ok ⟨s.i + l.length, s.in_brace, s.symbol_id,
      s.symbols_list ++ tagRun s.symbol_id s.in_brace l⟩ := by
  induction l generalizing s with
  | nil => simp [scanLoop, tagRun]
  | cons c r ih =>
    have h1 : c ≠ lbrace := fun hc => h.1 (by simp [hc])
    have h2 : c ≠ rbrace := fun hc => h.2 (by simp [hc])
    have hr : BraceFree r :=
      ⟨fun hm => h.1 (List.mem_cons_of_mem _ hm), fun hm => h.2 (List.mem_cons_of_mem _ hm)⟩
    rw [scanLoop_cons_ok r (scanStep_other s h1 h2), ih _ hr]
    simp [tagRun, Nat.add_assoc, Nat.add_comm 1]

/-- A successful scan advances the index by the number of code units read. -/
theorem scanLoop_ok_index {p : List CodeUnit} {s s1 : ScanState}
    (h : scanLoop p s = Except.ok s1) : s1.i = s.i + p.length := by
  induction p generalizing s with
  | nil => simp [scanLoop] at h; subst h; rfl
  | cons c r ih =>
    cases hs : scanStep s c with
    | error e => rw [scanLoop_cons_error r hs] at h; cases h
    | ok s2 =>
      rw [scanLoop_cons_ok r hs] at h
      have h2 : s2.i = s.i + 1 := by
        unfold scanStep at hs
        split at hs
        · split at hs
          · cases hs
          · cases hs; rfl
        · split at hs
          · split at hs
            · cases hs
            · cases hs; rfl
          · cases hs; rfl
      rw [ih h, h2, List.length_cons]; omega

/-- Reading the pairs `{i1}l1 ... {in}ln` outside a placeholder. -/
theorem scanLoop_segs (segs : List (JSString × JSString)) (s : ScanState)
    (hs : s.in_brace = false)
    (h : ∀ seg ∈ segs, BraceFree seg.1 ∧ BraceFree seg.2) :
    ∃ n, scanLoop (segs.flatMap (fun seg => lbrace :: seg.1 ++ rbrace :: seg.2)) s =
      Except.ok ⟨n, false, s.symbol_id + 2 * segs.length,
        s.symbols_list ++ tagSegs s.symbol_id segs⟩ := by
  induction segs generalizing s with
  | nil =>
    refine ⟨s.i, ?_⟩
    cases s
    simp only at hs
    simp [scanLoop, tagSegs, hs]
  | cons seg rest ih =>
    have h1 := (h seg (List.mem_cons_self _ _)).1
    have h2 := (h seg (List.mem_cons_self _ _)).2
    have hrest : ∀ sg ∈ rest, BraceFree sg.1 ∧ BraceFree sg.2 :=
      fun sg hsg => h sg (List.mem_cons_of_mem _ hsg)
    have e1 : scanStep s lbrace =
        Except.ok ⟨s.i + 1, true, s.symbol_id + 1, s.symbols_list⟩ := by
      rw [scanStep_lbrace]; simp [hs]
    have e2 := scanLoop_braceFree seg.1 ⟨s.i + 1, true, s.symbol_id + 1, s.symbols_list⟩ h1
    have e3 : scanStep ⟨s.i + 1 + seg.1.length, true, s.symbol_id + 1,
        s.symbols_list ++ tagRun (s.symbol_id + 1) true seg.1⟩ rbrace =
        Except.ok ⟨s.i + 1 + seg.1.length + 1, false, s.symbol_id + 1 + 1,
          s.symbols_list ++ tagRun (s.symbol_id + 1) true seg.1⟩ := by
      rw [scanStep_rbrace]; simp
    have e4 := scanLoop_braceFree seg.2 ⟨s.i + 1 + seg.1.length + 1, false,
      s.symbol_id + 1 + 1, s.symbols_list ++ tagRun (s.symbol_id + 1) true seg.1⟩ h2
    obtain ⟨n, hn⟩ := ih ⟨s.i + 1 + seg.1.length + 1 + seg.2.length, false,
      s.symbol_id + 1 + 1, s.symbols_list ++ tagRun (s.symbol_id + 1) true seg.1 ++
        tagRun (s.symbol_id + 1 + 1) false seg.2⟩ rfl hrest
    refine ⟨n, ?_⟩
    simp only [List.flatMap_cons, List.cons_append, List.append_assoc]
    rw [scanLoop_cons_ok _ e1, scanLoop_append_ok _ e2, scanLoop_cons_ok _ e3,
      scanLoop_append_ok _ e4]
    refine hn.trans ?_
    have e5 : s.symbol_id + 1 + 1 + 2 * rest.length = s.symbol_id + 2 * (rest.length + 1) := by
      omega
    simp only [tagSegs, List.length_cons, List.append_assoc, e5]

/-- The scanner's output on a well-formed pattern. -/
theorem convert_wellFormed (l0 : JSString) (segs : List (JSString × JSString))
    (h0 : BraceFree l0) (h : ∀ seg ∈ segs, BraceFree seg.1 ∧ BraceFree seg.2) :
    _convert_to_list (wellFormed l0 segs) = Except.ok (tagRun 0 false l0 ++ tagSegs 0 segs) := by
  have h1 := scanLoop_braceFree l0 scanInit h0
  obtain ⟨n, hn⟩ := scanLoop_segs segs ⟨scanInit.i + l0.length, scanInit.in_brace,
    scanInit.symbol_id, scanInit.symbols_list ++ tagRun scanInit.symbol_id scanInit.in_brace l0⟩
    rfl h
  unfold _convert_to_list wellFormed
  rw [scanLoop_append_ok _ h1, hn]
  simp [scanInit]

/-- The only errors of one scanner step. -/
theorem scanStep_error {s : ScanState} {c : CodeUnit} {e : SyntaxError}
    (h : scanStep s c = Except.error e) :
    (c = lbrace ∧ s.in_brace = true ∧ e = ⟨nested_opening_brace_error_message, s.i⟩) ∨
    (c = rbrace ∧ s.in_brace = false ∧ e = ⟨unmatched_closing_brace_error_message, s.i⟩) := by
  by_cases h1 : c = lbrace
  · subst h1
    rw [scanStep_lbrace] at h
    cases hb : s.in_brace with
    | false => simp [hb] at h
    | true =>
      simp only [hb, if_true] at h
      injection h with h
      exact Or.inl ⟨rfl, rfl, h.symm⟩
  · by_cases h2 : c = rbrace
    · subst h2
      rw [scanStep_rbrace] at h
      cases hb : s.in_brace with
      | true => simp [hb] at h
      | false =>
        simp only [hb, Bool.false_eq_true, if_false] at h
        injection h with h
        exact Or.inr ⟨rfl, rfl, h.symm⟩
    · rw [scanStep_other s h1 h2] at h
      cases h

/-- The scanner loop raises `e` exactly when some code unit raises it after the code
units before it have been read without error. -/
theorem scanLoop_error_iff (p : List CodeUnit) (s : ScanState) (e : SyntaxError) :
    scanLoop p s = Except.error e ↔
      ∃ j c s1, p[j]? = some c ∧ scanLoop (p.take j) s = Except.ok s1 ∧
        scanStep s1 c = Except.error e := by
  induction p generalizing s with
  | nil => simp [scanLoop]
  | cons c0 r ih =>
    cases hs : scanStep s c0 with
    | error e0 =>
      rw [scanLoop_cons_error r hs]
      constructor
      · intro h
        refine ⟨0, c0, s, by simp, by simp [scanLoop], ?_⟩
        rw [hs, h]
      · rintro ⟨j, c, s1, hj, hl, hstep⟩
        cases j with
        | zero =>
          simp only [List.getElem?_cons_zero, Option.some.injEq] at hj
          simp only [List.take_zero, scanLoop, Except.ok.injEq] at hl
          subst hj; subst hl
          rw [← hs, hstep]
        | succ j =>
          rw [List.take_succ_cons, scanLoop_cons_error _ hs] at hl
          cases hl
    | ok s2 =>
      rw [scanLoop_cons_ok r hs, ih]
      constructor
      · rintro ⟨j, c, s1, hj, hl, hstep⟩
        refine ⟨j + 1, c, s1, by simpa using hj, ?_, hstep⟩
        rw [List.take_succ_cons, scanLoop_cons_ok _ hs]
        exact hl
      · rintro ⟨j, c, s1, hj, hl, hstep⟩
        cases j with
        | zero =>
          simp only [List.getElem?_cons_zero, Option.some.injEq] at hj
          simp only [List.take_zero, scanLoop, Except.ok.injEq] at hl
          subst hj; subst hl
          rw [hs] at hstep
          cases hstep
        | succ j =>
          rw [List.take_succ_cons, scanLoop_cons_ok _ hs] at hl
          exact ⟨j, c, s1, by simpa using hj, hl, hstep⟩

/-- The special case for an empty list in `_compile` agrees with the loop. -/
theorem compile_eq (p : JSString) :
    _compile p = match _convert_to_list p with
      | Except.error e => Except.error e
      | Except.ok l => Except.ok (compileLoop l [] []) := by
  unfold _compile
  cases _convert_to_list p with
  | error e => rfl
  | ok l =>
    cases l with
    | nil => simp [compileLoop]
    | cons c r => simp

/-- The result of `_convert_to_list` in terms of the scanner loop. -/
theorem convert_ok_iff (p : JSString) (l : List CharObject) :
    _convert_to_list p = Except.ok l ↔
      ∃ s, scanLoop p scanInit = Except.ok s ∧ s.in_brace = false ∧ s.symbols_list = l := by
  unfold _convert_to_list
  cases hl : scanLoop p scanInit with
  | error e => simp
  | ok s =>
    cases hb : s.in_brace with
    | true => simp [_syntax_error, hb]
    | false => simp [hb]

theorem convert_error_iff (p : JSString) (e : SyntaxError) :
    _convert_to_list p = Except.error e ↔
      scanLoop p scanInit = Except.error e ∨
      ∃ s, scanLoop p scanInit = Except.ok s ∧ s.in_brace = true ∧
        e = ⟨unclosed_opening_brace_error_message, s.i⟩ := by
  unfold _convert_to_list
  cases hl : scanLoop p scanInit with
  | error e1 => simp
  | ok s =>
    cases hb : s.in_brace with
    | true =>
      simp only [_syntax_error, hb, ne_eq, Bool.true_eq_false, not_false_eq_true, if_true,
        Except.error.injEq, false_or, Except.ok.injEq, reduceCtorEq]
      constructor
      · intro h; exact ⟨s, rfl, hb, h.symm⟩
      · rintro ⟨s1, h1, _, h3⟩; subst h1; exact h3.symm
    | false =>
      simp only [hb, ne_eq, not_true_eq_false, if_false, reduceCtorEq, false_or,
        Except.ok.injEq, false_iff, not_exists, not_and]
      rintro s1 h1 h2; subst h1; rw [hb] at h2; cases h2

theorem compile_error_iff (p : JSString) (e : SyntaxError) :
    _compile p = Except.error e ↔ _convert_to_list p = Except.error e := by
  rw [compile_eq]
  cases _convert_to_list p <;> simp

theorem compile_ok_iff (p : JSString) (syms : List Symbol) :
    _compile p = Except.ok syms ↔
      ∃ l, _convert_to_list p = Except.ok l ∧ compileLoop l [] [] = syms := by
  rw [compile_eq]
  cases _convert_to_list p <;> simp

/-! ## Acceptance and the subsequence of braces -/

theorem braces_cons_lbrace (r : List CodeUnit) : braces (lbrace :: r) = lbrace :: braces r := by
  simp [braces]

theorem braces_cons_rbrace (r : List CodeUnit) : braces (rbrace :: r) = rbrace :: braces r := by
  simp [braces]

theorem braces_cons_other {c : CodeUnit} (r : List CodeUnit) (h1 : c ≠ lbrace)
    (h2 : c ≠ rbrace) : braces (c :: r) = braces r := by
  simp [braces, h1, h2]

theorem pairs_succ (n : Nat) :
    (List.replicate (n + 1) [lbrace, rbrace]).flatten =
      lbrace :: rbrace :: (List.replicate n [lbrace, rbrace]).flatten := by
  simp [List.replicate_succ]

/-- From a given state the scanner reads `p` to the end without error and ends outside
a placeholder exactly when the braces of `p` alternate, starting with the brace the
state expects. -/
theorem scanLoop_accepts_iff (p : List CodeUnit) (s : ScanState) :
    (∃ s1, scanLoop p s = Except.ok s1 ∧ s1.in_brace = false) ↔
      ∃ n, braces p = (if s.in_brace = true then [rbrace] else []) ++
        (List.replicate n [lbrace, rbrace]).flatten := by
  induction p generalizing s with
  | nil =>
    cases hb : s.in_brace with
    | false =>
      simp only [scanLoop, Except.ok.injEq, exists_eq_left', hb, Bool.false_eq_true, if_false,
        List.nil_append, true_iff]
      exact ⟨0, rfl⟩
    | true =>
      simp only [scanLoop, Except.ok.injEq, exists_eq_left', hb, if_true, Bool.true_eq_false,
        false_iff, not_exists]
      intro n h
      simp [braces] at h
  | cons c r ih =>
    by_cases h1 : c = lbrace
    · subst h1
      cases hb : s.in_brace with
      | true =>
        have hs : scanStep s lbrace =
            Except.error ⟨nested_opening_brace_error_message, s.i⟩ := by
          rw [scanStep_lbrace]; simp [hb]
        rw [scanLoop_cons_error r hs, braces_cons_lbrace]
        simp [lbrace, rbrace]
      | false =>
        have hs : scanStep s lbrace =
            Except.ok ⟨s.i + 1, true, s.symbol_id + 1, s.symbols_list⟩ := by
          rw [scanStep_lbrace]; simp [hb]
        rw [scanLoop_cons_ok r hs, ih, braces_cons_lbrace]
        simp only [if_true, Bool.false_eq_true, if_false, List.nil_append]
        constructor
        · rintro ⟨n, hn⟩
          exact ⟨n + 1, by rw [pairs_succ, hn]; rfl⟩
        · rintro ⟨n, hn⟩
          cases n with
          | zero => simp at hn
          | succ n =>
            rw [pairs_succ] at hn
            exact ⟨n, by simpa using hn⟩
    · by_cases h2 : c = rbrace
      · subst h2
        cases hb : s.in_brace with
        | true =>
          have hs : scanStep s rbrace =
              Except.ok ⟨s.i + 1, false, s.symbol_id + 1, s.symbols_list⟩ := by
            rw [scanStep_rbrace]; simp [hb]
          rw [scanLoop_cons_ok r hs, ih, braces_cons_rbrace]
          simp
        | false =>
          have hs : scanStep s rbrace =
              Except.error ⟨unmatched_closing_brace_error_message, s.i⟩ := by
            rw [scanStep_rbrace]; simp [hb]
          rw [scanLoop_cons_error r hs, braces_cons_rbrace]
          simp only [reduceCtorEq, false_and, exists_false, Bool.false_eq_true, if_false,
            List.nil_append, false_iff, not_exists]
          intro n hn
          cases n with
          | zero => simp at hn
          | succ n =>
            rw [pairs_succ] at hn
            simp [lbrace, rbrace] at hn
      · rw [scanLoop_cons_ok r (scanStep_other s h1 h2), ih, braces_cons_other r h1 h2]

/-- Every error of `_compile` carries one of the three messages. -/
theorem compile_error_message {p : JSString} {e : SyntaxError}
    (h : _compile p = Except.error e) :
    e.message = nested_opening_brace_error_message ∨
    e.message = unmatched_closing_brace_error_message ∨
    e.message = unclosed_opening_brace_error_message := by
  rw [compile_error_iff, convert_error_iff] at h
  rcases h with h | ⟨s, _, _, h⟩
  · rw [scanLoop_error_iff] at h
    obtain ⟨j, c, s1, _, _, hstep⟩ := h
    rcases scanStep_error hstep with ⟨_, _, he⟩ | ⟨_, _, he⟩
    · exact Or.inl (by rw [he])
    · exact Or.inr (Or.inl (by rw [he]))
  · exact Or.inr (Or.inr (by rw [h]))

/-- Compilation succeeds exactly when the braces alternate. -/
theorem compile_ok_iff_braces (p : JSString) :
    (∃ syms, _compile p = Except.ok syms) ↔
      ∃ n, braces p = (List.replicate n [lbrace, rbrace]).flatten := by
  have h := scanLoop_accepts_iff p scanInit
  simp only [scanInit, Bool.false_eq_true, if_false, List.nil_append] at h
  rw [← h]
  constructor
  · rintro ⟨syms, hs⟩
    obtain ⟨l, hl, _⟩ := (compile_ok_iff p syms).1 hs
    obtain ⟨s, h1, h2, _⟩ := (convert_ok_iff p l).1 hl
    exact ⟨s, h1, h2⟩
  · rintro ⟨s, h1, h2⟩
    exact ⟨_, (compile_ok_iff p _).2 ⟨s.symbols_list, (convert_ok_iff p _).2 ⟨s, h1, h2, rfl⟩, rfl⟩⟩

/-- An error of the scanner loop is raised by the code unit at the reported position. -/
theorem scanLoop_error_at (p : JSString) (e : SyntaxError) :
    scanLoop p scanInit = Except.error e ↔
      ∃ c s, p[e.pos]? = some c ∧ scanLoop (p.take e.pos) scanInit = Except.ok s ∧
        scanStep s c = Except.error e := by
  rw [scanLoop_error_iff]
  constructor
  · rintro ⟨j, c, s1, hj, hl, hstep⟩
    have hi := scanLoop_ok_index hl
    have hlt : j < p.length := (List.getElem?_eq_some_iff.1 hj).1
    have hpos : e.pos = j := by
      rcases scanStep_error hstep with ⟨_, _, he⟩ | ⟨_, _, he⟩ <;>
        · rw [he]
          simp only [scanInit, List.length_take] at hi ⊢
          omega
    rw [hpos]
    exact ⟨c, s1, hj, hl, hstep⟩
  · rintro ⟨c, s, hj, hl, hstep⟩
    exact ⟨e.pos, c, s, hj, hl, hstep⟩

theorem messages_distinct :
    nested_opening_brace_error_message ≠ unmatched_closing_brace_error_message ∧
    nested_opening_brace_error_message ≠ unclosed_opening_brace_error_message ∧
    unmatched_closing_brace_error_message ≠ unclosed_opening_brace_error_message := by
  decide

/-! ## Symbol builder lemmas -/

/-- A non-empty run of characters with one group id, followed by characters of other
group ids, is accumulated into one symbol. -/
theorem compileLoop_run (sid : Nat) (sub : Bool) (l : JSString) (rest : List CharObject)
    (acc : JSString) (ret : List Symbol) (hl : l ≠ []) (hrest : ∀ c ∈ rest, c.sid ≠ sid) :
    compileLoop (tagRun sid sub l ++ rest) acc ret =
      compileLoop rest [] (ret ++ [_newSymbol (acc ++ l) sub]) := by
  induction l generalizing acc with
  | nil => exact absurd rfl hl
  | cons c r ih =>
    cases r with
    | nil =>
      have hend : _at_end_of_symbol ⟨sid, c, sub⟩ rest.head? = true := by
        cases rest with
        | nil => rfl
        | cons d rest1 =>
          simpa [_at_end_of_symbol] using hrest d (List.mem_cons_self _ _)
      simp [tagRun, compileLoop, hend]
    | cons c1 r1 =>
      have ih1 := ih (acc ++ [c]) (by simp)
      simp only [tagRun, List.map_cons, List.cons_append] at ih1 ⊢
      rw [compileLoop]
      simp only [List.head?_cons, _at_end_of_symbol]
      simp only [ne_eq, not_true_eq_false, decide_False, Bool.false_eq_true, if_false]
      rw [ih1]
      simp

theorem mem_tagRun {sid : Nat} {sub : Bool} {l : JSString} {c : CharObject}
    (h : c ∈ tagRun sid sub l) : c.sid = sid := by
  simp only [tagRun, List.mem_map] at h
  obtain ⟨a, _, rfl⟩ := h
  rfl

theorem mem_tagSegs {segs : List (JSString × JSString)} {sid : Nat} {c : CharObject}
    (h : c ∈ tagSegs sid segs) : sid < c.sid := by
  induction segs generalizing sid with
  | nil => simp [tagSegs] at h
  | cons seg rest ih =>
    simp only [tagSegs, List.mem_append] at h
    rcases h with h | h | h
    · have := mem_tagRun h; omega
    · have := mem_tagRun h; omega
    · have := ih h; omega

/-- The symbols built from a run: one symbol, or none when the run is empty. -/
theorem compileLoop_run_or_empty (sid : Nat) (sub : Bool) (l : JSString)
    (rest : List CharObject) (ret : List Symbol) (hrest : ∀ c ∈ rest, c.sid ≠ sid) :
    compileLoop (tagRun sid sub l ++ rest) [] ret =
      compileLoop rest [] (ret ++ [_newSymbol l sub].filter (fun sym => decide (sym.text ≠ []))) := by
  by_cases hl : l = []
  · subst hl
    cases sub <;> simp [tagRun, _newSymbol, Symbol.text]
  · rw [compileLoop_run sid sub l rest [] ret hl hrest]
    have : [_newSymbol l sub].filter (fun sym => decide (sym.text ≠ [])) = [_newSymbol l sub] := by
      cases sub <;> simp [_newSymbol, Symbol.text, hl]
    rw [this]; simp

theorem compileLoop_tagSegs (segs : List (JSString × JSString)) (sid : Nat)
    (ret : List Symbol) :
    compileLoop (tagSegs sid segs) [] ret =
      ret ++ (segs.flatMap (fun seg => [Symbol.Substitution seg.1, Symbol.Literal seg.2])).filter
        (fun sym => decide (sym.text ≠ [])) := by
  induction segs generalizing sid ret with
  | nil => simp [tagSegs, compileLoop]
  | cons seg rest ih =>
    have hr1 : ∀ c ∈ tagRun (sid + 2) false seg.2 ++ tagSegs (sid + 2) rest, c.sid ≠ sid + 1 := by
      intro c hc
      rcases List.mem_append.1 hc with h | h
      · have := mem_tagRun h; omega
      · have := mem_tagSegs h; omega
    have hr2 : ∀ c ∈ tagSegs (sid + 2) rest, c.sid ≠ sid + 2 := by
      intro c hc
      have := mem_tagSegs hc; omega
    rw [tagSegs, compileLoop_run_or_empty _ _ _ _ _ hr1, compileLoop_run_or_empty _ _ _ _ _ hr2, ih]
    simp only [_newSymbol, List.flatMap_cons, List.filter_cons, List.filter_append,
      List.cons_append, List.nil_append, List.append_assoc, List.filter_nil,
      Bool.false_eq_true, if_false, if_true]
    split <;> split <;> simp

/-- The symbols of a well-formed pattern. -/
theorem compile_wellFormed (l0 : JSString) (segs : List (JSString × JSString))
    (h0 : BraceFree l0) (h : ∀ seg ∈ segs, BraceFree seg.1 ∧ BraceFree seg.2) :
    _compile (wellFormed l0 segs) = Except.ok (expectedSymbols l0 segs) := by
  have hr : ∀ c ∈ tagSegs 0 segs, c.sid ≠ 0 := by
    intro c hc
    have := mem_tagSegs hc; omega
  rw [compile_eq, convert_wellFormed l0 segs h0 h]
  simp only
  rw [compileLoop_run_or_empty _ _ _ _ _ hr, compileLoop_tagSegs]
  simp only [expectedSymbols, _newSymbol, List.filter_cons, List.filter_nil,
    Bool.false_eq_true, if_false]
  split <;> simp

theorem text_newSymbol (value : JSString) (is_substitution : Bool) :
    (_newSymbol value is_substitution).text = value := by
  cases is_substitution <;> rfl

/-- Every symbol the loop of `_compile` adds has non-empty text. -/
theorem compileLoop_text_ne_nil (l : List CharObject) (acc : JSString) (ret : List Symbol)
    (h : ∀ sym ∈ ret, sym.text ≠ []) : ∀ sym ∈ compileLoop l acc ret, sym.text ≠ [] := by
  induction l generalizing acc ret with
  | nil => simpa [compileLoop] using h
  | cons c r ih =>
    rw [compileLoop]
    split
    · apply ih
      intro sym hsym
      rcases List.mem_append.1 hsym with hm | hm
      · exact h sym hm
      · rw [List.mem_singleton.1 hm, text_newSymbol]
        simp
    · exact ih _ _ h

/-! ## Renderer lemmas -/

theorem buildLoop_eq (symbols : List Symbol) (table : Table) (retval : JSString) :
    buildLoop symbols table retval =
      retval ++ symbols.flatMap (fun sym => (sym.getValue table).toStr) := by
  induction symbols generalizing retval with
  | nil => simp [buildLoop]
  | cons sym rest ih => simp [buildLoop, ih]

theorem build_eq (symbols : List Symbol) (table : Table) :
    build symbols table = symbols.flatMap (fun sym => (sym.getValue table).toStr) := by
  simp [build, buildLoop_eq]

theorem patternBuild_of_compile {p : JSString} {symbols : List Symbol}
    (h : _compile p = Except.ok symbols) (table : Table) :
    patternBuild p table = Except.ok (build symbols table) := by
  simp [patternBuild, h]

/-- What a symbol contributes to the output when the symbols of empty text are
dropped. -/
theorem flatMap_filter_text (symbols : List Symbol) (f : Symbol → JSString) :
    (symbols.filter (fun sym => decide (sym.text ≠ []))).flatMap f =
      symbols.flatMap (fun sym => if sym.text = [] then [] else f sym) := by
  induction symbols with
  | nil => rfl
  | cons sym rest ih =>
    by_cases h : sym.text = []
    · rw [List.filter_cons, List.flatMap_cons, ← ih]
      simp [h]
    · rw [List.filter_cons, List.flatMap_cons, ← ih]
      simp [h]

theorem contribution_Literal (value : JSString) (table : Table) :
    (if (Symbol.Literal value).text = [] then []
      else ((Symbol.Literal value).getValue table).toStr) = value := by
  by_cases h : value = []
  · simp [Symbol.text, h]
  · simp [Symbol.text, h, Symbol.getValue, Value.toStr]

theorem contribution_Substitution (key : JSString) (table : Table) :
    (if (Symbol.Substitution key).text = [] then []
      else ((Symbol.Substitution key).getValue table).toStr) =
      if key = [] then [] else (table key).toStr := rfl

/-- The output built from the symbols of a well-formed pattern. -/
theorem build_expectedSymbols (l0 : JSString) (segs : List (JSString × JSString))
    (table : Table) :
    build (expectedSymbols l0 segs) table =
      l0 ++ segs.flatMap
        (fun seg => (if seg.1 = [] then [] else (table seg.1).toStr) ++ seg.2) := by
  have hsegs : ∀ sg : List (JSString × JSString),
      (sg.flatMap (fun seg => [Symbol.Substitution seg.1, Symbol.Literal seg.2])).flatMap
        (fun sym => if sym.text = [] then [] else (sym.getValue table).toStr) =
      sg.flatMap (fun seg => (if seg.1 = [] then [] else (table seg.1).toStr) ++ seg.2) := by
    intro sg
    induction sg with
    | nil => rfl
    | cons seg rest ih =>
      rw [List.flatMap_cons, List.flatMap_cons, List.flatMap_append, ih, List.flatMap_cons,
        List.flatMap_cons, List.flatMap_nil, contribution_Literal, contribution_Substitution]
      simp
  rw [build_eq, expectedSymbols, flatMap_filter_text, List.flatMap_cons, hsegs,
    contribution_Literal]

/-! ## Decomposition of accepted patterns -/

theorem braceFree_nil : BraceFree [] := by
  simp [BraceFree]

theorem braceFree_cons (c : CodeUnit) (l : JSString) :
    BraceFree (c :: l) ↔ c ≠ lbrace ∧ c ≠ rbrace ∧ BraceFree l := by
  simp only [BraceFree, List.mem_cons, not_or]
  constructor
  · rintro ⟨⟨h1, h2⟩, h3, h4⟩
    exact ⟨fun h => h1 h.symm, fun h => h3 h.symm, h2, h4⟩
  · rintro ⟨h1, h3, h2, h4⟩
    exact ⟨⟨fun h => h1 h.symm, h2⟩, fun h => h3 h.symm, h4⟩

theorem braceFree_append (a b : JSString) :
    BraceFree (a ++ b) ↔ BraceFree a ∧ BraceFree b := by
  simp only [BraceFree, List.mem_append, not_or]
  constructor
  · rintro ⟨⟨h1, h2⟩, h3, h4⟩
    exact ⟨⟨h1, h3⟩, h2, h4⟩
  · rintro ⟨⟨h1, h3⟩, h2, h4⟩
    exact ⟨⟨h1, h2⟩, h3, h4⟩

/-- Every string the scanner reads to the end without error, ending outside a
placeholder, splits into brace-free literals and identifiers. -/
theorem scanLoop_decompose (p : List CodeUnit) (s s1 : ScanState)
    (h : scanLoop p s = Except.ok s1) (h1 : s1.in_brace = false) :
    (s.in_brace = false →
      ∃ (l0 : JSString) (segs : List (JSString × JSString)), BraceFree l0 ∧
        (∀ seg ∈ segs, BraceFree seg.1 ∧ BraceFree seg.2) ∧ p = wellFormed l0 segs) ∧
    (s.in_brace = true →
      ∃ (i l0 : JSString) (segs : List (JSString × JSString)), BraceFree i ∧ BraceFree l0 ∧
        (∀ seg ∈ segs, BraceFree seg.1 ∧ BraceFree seg.2) ∧
        p = i ++ rbrace :: wellFormed l0 segs) := by
  induction p generalizing s with
  | nil =>
    simp only [scanLoop, Except.ok.injEq] at h
    subst h
    refine ⟨fun _ => ⟨[], [], braceFree_nil, by simp, by simp [wellFormed]⟩, fun hb => ?_⟩
    rw [h1] at hb
    cases hb
  | cons c r ih =>
    by_cases hc1 : c = lbrace
    · subst hc1
      cases hb : s.in_brace with
      | true =>
        have hs : scanStep s lbrace =
            Except.error ⟨nested_opening_brace_error_message, s.i⟩ := by
          rw [scanStep_lbrace]; simp [hb]
        rw [scanLoop_cons_error r hs] at h
        cases h
      | false =>
        have hs : scanStep s lbrace =
            Except.ok ⟨s.i + 1, true, s.symbol_id + 1, s.symbols_list⟩ := by
          rw [scanStep_lbrace]; simp [hb]
        rw [scanLoop_cons_ok r hs] at h
        obtain ⟨i, l0, segs, hi, hl0, hsegs, hr⟩ := (ih _ h).2 rfl
        refine ⟨fun _ => ⟨[], (i, l0) :: segs, braceFree_nil, ?_, ?_⟩, fun hb2 => by cases hb2⟩
        · intro seg hseg
          rcases List.mem_cons.1 hseg with rfl | hm
          · exact ⟨hi, hl0⟩
          · exact hsegs seg hm
        · rw [hr]
          simp [wellFormed]
    · by_cases hc2 : c = rbrace
      · subst hc2
        cases hb : s.in_brace with
        | false =>
          have hs : scanStep s rbrace =
              Except.error ⟨unmatched_closing_brace_error_message, s.i⟩ := by
            rw [scanStep_rbrace]; simp [hb]
          rw [scanLoop_cons_error r hs] at h
          cases h
        | true =>
          have hs : scanStep s rbrace =
              Except.ok ⟨s.i + 1, false, s.symbol_id + 1, s.symbols_list⟩ := by
            rw [scanStep_rbrace]; simp [hb]
          rw [scanLoop_cons_ok r hs] at h
          obtain ⟨l0, segs, hl0, hsegs, hr⟩ := (ih _ h).1 rfl
          refine ⟨fun hb2 => (by cases hb2), fun _ => ⟨[], l0, segs, braceFree_nil, hl0, hsegs, ?_⟩⟩
          rw [hr]
          rfl
      · rw [scanLoop_cons_ok r (scanStep_other s hc1 hc2)] at h
        have hih := ih _ h
        constructor
        · intro hb
          obtain ⟨l0, segs, hl0, hsegs, hr⟩ := hih.1 hb
          refine ⟨c :: l0, segs, (braceFree_cons c l0).2 ⟨hc1, hc2, hl0⟩, hsegs, ?_⟩
          rw [hr]
          rfl
        · intro hb
          obtain ⟨i, l0, segs, hi, hl0, hsegs, hr⟩ := hih.2 hb
          refine ⟨c :: i, l0, segs, (braceFree_cons c i).2 ⟨hc1, hc2, hi⟩, hl0, hsegs, ?_⟩
          rw [hr]
          rfl

/-- A pattern on which the scanner succeeds is a well-formed pattern, and the scanner
returns the tagged runs of its parts. -/
theorem convert_ok_decompose {p : JSString} {l : List CharObject}
    (h : _convert_to_list p = Except.ok l) :
    ∃ (l0 : JSString) (segs : List (JSString × JSString)), BraceFree l0 ∧
      (∀ seg ∈ segs, BraceFree seg.1 ∧ BraceFree seg.2) ∧ p = wellFormed l0 segs ∧
      l = tagRun 0 false l0 ++ tagSegs 0 segs := by
  obtain ⟨s, hs, hb, _⟩ := (convert_ok_iff p l).1 h
  obtain ⟨l0, segs, hl0, hsegs, hp⟩ := (scanLoop_decompose p scanInit s hs hb).1 rfl
  refine ⟨l0, segs, hl0, hsegs, hp, ?_⟩
  have h2 := convert_wellFormed l0 segs hl0 hsegs
  rw [← hp, h] at h2
  injection h2

/-- A pattern that compiles is a well-formed pattern, and its symbols are the expected
ones. -/
theorem compile_ok_decompose {p : JSString} {symbols : List Symbol}
    (h : _compile p = Except.ok symbols) :
    ∃ (l0 : JSString) (segs : List (JSString × JSString)), BraceFree l0 ∧
      (∀ seg ∈ segs, BraceFree seg.1 ∧ BraceFree seg.2) ∧ p = wellFormed l0 segs ∧
      symbols = expectedSymbols l0 segs := by
  obtain ⟨l, hl, _⟩ := (compile_ok_iff p symbols).1 h
  obtain ⟨l0, segs, hl0, hsegs, hp, _⟩ := convert_ok_decompose hl
  refine ⟨l0, segs, hl0, hsegs, hp, ?_⟩
  have h2 := compile_wellFormed l0 segs hl0 hsegs
  rw [← hp, h] at h2
  injection h2

/-- The text of every expected symbol is one of the parts of the pattern. -/
theorem mem_expectedSymbols {l0 : JSString} {segs : List (JSString × JSString)}
    {sym : Symbol} (h : sym ∈ expectedSymbols l0 segs) :
    sym = Symbol.Literal l0 ∨
      ∃ seg ∈ segs, sym = Symbol.Substitution seg.1 ∨ sym = Symbol.Literal seg.2 := by
  simp only [expectedSymbols, List.mem_filter, List.mem_cons, List.mem_flatMap,
    List.mem_singleton, List.not_mem_nil, or_false] at h
  rcases h.1 with h1 | ⟨seg, hseg, h2⟩
  · exact Or.inl h1
  · exact Or.inr ⟨seg, hseg, h2⟩

/-! ## Group ids of the tagged characters -/

theorem pairwise_tagRun (sid : Nat) (sub : Bool) (l : JSString) :
    (tagRun sid sub l).Pairwise (fun c d => c.sid ≤ d.sid) := by
  rw [List.pairwise_iff_forall_sublist]
  intro c d hsub
  have hc : c ∈ tagRun sid sub l := hsub.subset (by simp)
  have hd : d ∈ tagRun sid sub l := hsub.subset (by simp)
  rw [mem_tagRun hc, mem_tagRun hd]

theorem pairwise_tagSegs (segs : List (JSString × JSString)) (sid : Nat) :
    (tagSegs sid segs).Pairwise (fun c d => c.sid ≤ d.sid) := by
  induction segs generalizing sid with
  | nil => simp [tagSegs]
  | cons seg rest ih =>
    rw [tagSegs, List.pairwise_append, List.pairwise_append]
    refine ⟨pairwise_tagRun _ _ _, ⟨pairwise_tagRun _ _ _, ih _, ?_⟩, ?_⟩
    · intro c hc d hd
      have h1 := mem_tagRun hc
      have h2 := mem_tagSegs hd
      omega
    · intro c hc d hd
      have h1 := mem_tagRun hc
      rcases List.mem_append.1 hd with h2 | h2
      · have := mem_tagRun h2; omega
      · have := mem_tagSegs h2; omega

/-- The group ids of the scanner's output on a well-formed pattern never decrease. -/
theorem pairwise_tagged (l0 : JSString) (segs : List (JSString × JSString)) :
    (tagRun 0 false l0 ++ tagSegs 0 segs).Pairwise (fun c d => c.sid ≤ d.sid) := by
  rw [List.pairwise_append]
  refine ⟨pairwise_tagRun _ _ _, pairwise_tagSegs _ _, ?_⟩
  intro c hc d hd
  have h1 := mem_tagRun hc
  omega

theorem mem_tagRun_sub {sid : Nat} {sub : Bool} {l : JSString} {c : CharObject}
    (h : c ∈ tagRun sid sub l) : c.sub = sub := by
  simp only [tagRun, List.mem_map] at h
  obtain ⟨a, _, rfl⟩ := h
  rfl

/-- From an even group counter, identifiers get odd group ids and literals even ones. -/
theorem mem_tagSegs_parity {segs : List (JSString × JSString)} {sid : Nat} {c : CharObject}
    (h : c ∈ tagSegs sid segs) (hs : sid % 2 = 0) : c.sub = true ↔ c.sid % 2 = 1 := by
  induction segs generalizing sid with
  | nil => simp [tagSegs] at h
  | cons seg rest ih =>
    simp only [tagSegs, List.mem_append] at h
    rcases h with h | h | h
    · rw [mem_tagRun h, mem_tagRun_sub h]
      simp only [true_iff]
      omega
    · rw [mem_tagRun h, mem_tagRun_sub h]
      simp only [Bool.false_eq_true, false_iff]
      omega
    · exact ih h (by omega)

theorem mem_tagged_parity {l0 : JSString} {segs : List (JSString × JSString)} {c : CharObject}
    (h : c ∈ tagRun 0 false l0 ++ tagSegs 0 segs) : c.sub = true ↔ c.sid % 2 = 1 := by
  rcases List.mem_append.1 h with h | h
  · rw [mem_tagRun h, mem_tagRun_sub h]
    simp
  · exact mem_tagSegs_parity h rfl

theorem chain_tagRun (R : CharObject → CharObject → Prop)
    (hR : ∀ c d : CharObject, d.sid = c.sid → R c d)
    (sid : Nat) (sub : Bool) (l : JSString) : (tagRun sid sub l).Chain' R := by
  unfold tagRun
  rw [List.chain'_map]
  exact List.Pairwise.chain' (List.pairwise_of_forall (fun a b => hR _ _ rfl))

/-- A well-formed pattern with an empty identifier contains the substring `{}`. -/
theorem infix_of_empty_identifier {l0 : JSString} {segs : List (JSString × JSString)}
    {seg : JSString × JSString} (hseg : seg ∈ segs) (h : seg.1 = []) :
    [lbrace, rbrace] <:+: wellFormed l0 segs := by
  obtain ⟨a, b, rfl⟩ := List.append_of_mem hseg
  refine ⟨l0 ++ a.flatMap (fun sg => lbrace :: sg.1 ++ rbrace :: sg.2),
    seg.2 ++ b.flatMap (fun sg => lbrace :: sg.1 ++ rbrace :: sg.2), ?_⟩
  simp [wellFormed, h]

/-- When no identifier is empty, consecutive tagged characters of the pairs differ by
at most two in group id, and the first one has the group id after the counter. -/
theorem chain_tagSegs (segs : List (JSString × JSString)) (sid : Nat)
    (h : ∀ seg ∈ segs, seg.1 ≠ []) :
    (tagSegs sid segs).Chain'
      (fun c d => d.sid = c.sid ∨ d.sid = c.sid + 1 ∨ d.sid = c.sid + 2) ∧
    ∀ y ∈ (tagSegs sid segs).head?, y.sid = sid + 1 := by
  induction segs generalizing sid with
  | nil => simp [tagSegs]
  | cons seg rest ih =>
    have hseg : seg.1 ≠ [] := h seg (List.mem_cons_self _ _)
    obtain ⟨ih1, ih2⟩ := ih (sid + 2) (fun sg hsg => h sg (List.mem_cons_of_mem _ hsg))
    have hrefl : ∀ c d : CharObject, d.sid = c.sid →
        (d.sid = c.sid ∨ d.sid = c.sid + 1 ∨ d.sid = c.sid + 2) :=
      fun c d hcd => Or.inl hcd
    have hinner_head : ∀ y ∈ (tagRun (sid + 2) false seg.2 ++ tagSegs (sid + 2) rest).head?,
        y.sid = sid + 2 ∨ y.sid = sid + 3 := by
      intro y hy
      cases h2 : tagRun (sid + 2) false seg.2 with
      | nil =>
        rw [h2, List.nil_append] at hy
        exact Or.inr (ih2 y hy)
      | cons d r =>
        rw [h2] at hy
        simp only [List.cons_append, List.head?_cons, Option.mem_def, Option.some.injEq] at hy
        subst hy
        exact Or.inl (mem_tagRun (by rw [h2]; exact List.mem_cons_self _ _))
    rw [tagSegs]
    constructor
    · rw [List.chain'_append, List.chain'_append]
      refine ⟨chain_tagRun _ hrefl _ _ _, ⟨chain_tagRun _ hrefl _ _ _, ih1, ?_⟩, ?_⟩
      · intro x hx y hy
        have h1 := mem_tagRun (List.mem_of_mem_getLast? hx)
        have h2 := ih2 y hy
        omega
      · intro x hx y hy
        have h1 := mem_tagRun (List.mem_of_mem_getLast? hx)
        rcases hinner_head y hy with h2 | h2 <;> omega
    · intro y hy
      cases h1 : tagRun (sid + 1) true seg.1 with
      | nil =>
        simp [tagRun, hseg] at h1
      | cons d r =>
        rw [h1] at hy
        simp only [List.cons_append, List.head?_cons, Option.mem_def, Option.some.injEq] at hy
        subst hy
        exact mem_tagRun (by rw [h1]; exact List.mem_cons_self _ _)

theorem chain_tagged (l0 : JSString) (segs : List (JSString × JSString))
    (h : ∀ seg ∈ segs, seg.1 ≠ []) :
    (tagRun 0 false l0 ++ tagSegs 0 segs).Chain'
      (fun c d => d.sid = c.sid ∨ d.sid = c.sid + 1 ∨ d.sid = c.sid + 2) := by
  obtain ⟨h1, h2⟩ := chain_tagSegs segs 0 h
  rw [List.chain'_append]
  refine ⟨chain_tagRun _ (fun c d hcd => Or.inl hcd) _ _ _, h1, ?_⟩
  intro x hx y hy
  have h3 := mem_tagRun (List.mem_of_mem_getLast? hx)
  have h4 := h2 y hy
  omega

/-! ## The values of the tagged characters -/

theorem scanLoop_append_inv {a b : List CodeUnit} {s sf : ScanState}
    (h : scanLoop (a ++ b) s = Except.ok sf) :
    ∃ s1, scanLoop a s = Except.ok s1 ∧ scanLoop b s1 = Except.ok sf := by
  cases ha : scanLoop a s with
  | error e =>
    rw [scanLoop_append_error b ha] at h
    cases h
  | ok s1 =>
    rw [scanLoop_append_ok b ha] at h
    exact ⟨s1, rfl, h⟩

/-- The scanner appends one tagged character per non-brace character read, carrying
that character, and none for a brace. -/
theorem scanLoop_vals {a : List CodeUnit} {s s1 : ScanState}
    (h : scanLoop a s = Except.ok s1) :
    ∃ X, s1.symbols_list = s.symbols_list ++ X ∧ X.map CharObject.val = content a := by
  induction a generalizing s with
  | nil =>
    simp only [scanLoop, Except.ok.injEq] at h
    subst h
    exact ⟨[], by simp, rfl⟩
  | cons c r ih =>
    by_cases hc1 : c = lbrace
    · subst hc1
      cases hb : s.in_brace with
      | true =>
        have hs : scanStep s lbrace =
            Except.error ⟨nested_opening_brace_error_message, s.i⟩ := by
          rw [scanStep_lbrace]; simp [hb]
        rw [scanLoop_cons_error r hs] at h
        cases h
      | false =>
        have hs : scanStep s lbrace =
            Except.ok ⟨s.i + 1, true, s.symbol_id + 1, s.symbols_list⟩ := by
          rw [scanStep_lbrace]; simp [hb]
        rw [scanLoop_cons_ok r hs] at h
        obtain ⟨X, hX, hv⟩ := ih h
        exact ⟨X, hX, by rw [hv]; simp [content]⟩
    · by_cases hc2 : c = rbrace
      · subst hc2
        cases hb : s.in_brace with
        | false =>
          have hs : scanStep s rbrace =
              Except.error ⟨unmatched_closing_brace_error_message, s.i⟩ := by
            rw [scanStep_rbrace]; simp [hb]
          rw [scanLoop_cons_error r hs] at h
          cases h
        | true =>
          have hs : scanStep s rbrace =
              Except.ok ⟨s.i + 1, false, s.symbol_id + 1, s.symbols_list⟩ := by
            rw [scanStep_rbrace]; simp [hb]
          rw [scanLoop_cons_ok r hs] at h
          obtain ⟨X, hX, hv⟩ := ih h
          exact ⟨X, hX, by rw [hv]; simp [content]⟩
      · rw [scanLoop_cons_ok r (scanStep_other s hc1 hc2)] at h
        obtain ⟨X, hX, hv⟩ := ih h
        refine ⟨⟨s.symbol_id, c, s.in_brace⟩ :: X, ?_, ?_⟩
        · rw [hX]; simp
        · simp [content, hc1, hc2, hv]

theorem content_cons_lbrace (r : List CodeUnit) : content (lbrace :: r) = content r := by
  simp [content]

theorem content_cons_rbrace (r : List CodeUnit) : content (rbrace :: r) = content r := by
  simp [content]

theorem content_cons_other {c : CodeUnit} (r : List CodeUnit) (h1 : c ≠ lbrace)
    (h2 : c ≠ rbrace) : content (c :: r) = c :: content r := by
  simp [content, h1, h2]

/-- Braces and content characters partition a string. -/
theorem length_content_add_braces (p : JSString) :
    (content p).length + (braces p).length = p.length := by
  induction p with
  | nil => rfl
  | cons c r ih =>
    by_cases hc1 : c = lbrace
    · subst hc1
      rw [content_cons_lbrace, braces_cons_lbrace, List.length_cons, List.length_cons]
      omega
    · by_cases hc2 : c = rbrace
      · subst hc2
        rw [content_cons_rbrace, braces_cons_rbrace, List.length_cons, List.length_cons]
        omega
      · rw [content_cons_other r hc1 hc2, braces_cons_other r hc1 hc2, List.length_cons,
          List.length_cons]
        omega

/-! ## Concatenation of well-formed patterns -/

theorem wellFormed_cons (l0 : JSString) (seg : JSString × JSString)
    (rest : List (JSString × JSString)) :
    wellFormed l0 (seg :: rest) = l0 ++ (lbrace :: seg.1 ++ rbrace :: wellFormed seg.2 rest) := by
  simp [wellFormed]

theorem rendered_cons (table : Table) (l0 : JSString) (seg : JSString × JSString)
    (rest : List (JSString × JSString)) :
    rendered table l0 (seg :: rest) =
      l0 ++ ((if seg.1 = [] then [] else (table seg.1).toStr) ++ rendered table seg.2 rest) := by
  simp [rendered]

theorem expectedSymbols_cons (l0 : JSString) (seg : JSString × JSString)
    (rest : List (JSString × JSString)) :
    expectedSymbols l0 (seg :: rest) =
      [Symbol.Literal l0, Symbol.Substitution seg.1].filter (fun sym => decide (sym.text ≠ [])) ++
        expectedSymbols seg.2 rest := by
  simp only [expectedSymbols, List.flatMap_cons, List.cons_append, List.nil_append]
  rw [← List.filter_append]
  rfl

theorem expectedSymbols_nil (l0 : JSString) :
    expectedSymbols l0 [] = if l0 = [] then [] else [Symbol.Literal l0] := by
  by_cases h : l0 = [] <;> simp [expectedSymbols, Symbol.text, h]

theorem expectedSymbols_eq (l0 : JSString) (segs : List (JSString × JSString)) :
    expectedSymbols l0 segs = expectedSymbols l0 [] ++
      (segs.flatMap (fun seg => [Symbol.Substitution seg.1, Symbol.Literal seg.2])).filter
        (fun sym => decide (sym.text ≠ [])) := by
  simp only [expectedSymbols, List.flatMap_nil]
  rw [← List.filter_append]
  rfl

theorem build_expectedSymbols_rendered (l0 : JSString) (segs : List (JSString × JSString))
    (table : Table) : build (expectedSymbols l0 segs) table = rendered table l0 segs :=
  build_expectedSymbols l0 segs table

theorem getLast?_append_cons (a : JSString) (c : CodeUnit) (w : JSString) :
    (a ++ c :: w).getLast? = if w = [] then some c else w.getLast? := by
  by_cases hw : w = []
  · subst hw
    simp
  · have h : a ++ c :: w = (a ++ [c]) ++ w := by simp
    rw [h, List.getLast?_append_of_ne_nil _ hw]
    simp [hw]

/-- The concatenation of two well-formed patterns is a well-formed pattern; it renders
to the concatenation of the two outputs, and its symbols are the symbols of the first
followed by those of the second exactly when the first pattern is empty or ends with a
closing brace, or the second starts with no literal. -/
theorem wellFormed_append (m0 : JSString) (segs2 : List (JSString × JSString))
    (segs : List (JSString × JSString)) (l0 : JSString) (h0 : BraceFree l0)
    (hsegs : ∀ seg ∈ segs, BraceFree seg.1 ∧ BraceFree seg.2) (hm0 : BraceFree m0)
    (hsegs2 : ∀ seg ∈ segs2, BraceFree seg.1 ∧ BraceFree seg.2) :
    ∃ (l1 : JSString) (segs1 : List (JSString × JSString)), BraceFree l1 ∧
      (∀ seg ∈ segs1, BraceFree seg.1 ∧ BraceFree seg.2) ∧
      wellFormed l0 segs ++ wellFormed m0 segs2 = wellFormed l1 segs1 ∧
      (∀ table, rendered table l1 segs1 = rendered table l0 segs ++ rendered table m0 segs2) ∧
      (expectedSymbols l1 segs1 = expectedSymbols l0 segs ++ expectedSymbols m0 segs2 ↔
        (wellFormed l0 segs = [] ∨ (wellFormed l0 segs).getLast? = some rbrace ∨ m0 = [])) := by
  induction segs generalizing l0 with
  | nil =>
    refine ⟨l0 ++ m0, segs2, (braceFree_append l0 m0).2 ⟨h0, hm0⟩, hsegs2, ?_, ?_, ?_⟩
    · simp [wellFormed]
    · intro table
      simp [rendered]
    · rw [expectedSymbols_eq (l0 ++ m0), expectedSymbols_eq m0 segs2, ← List.append_assoc,
        List.append_cancel_right_eq, expectedSymbols_nil, expectedSymbols_nil,
        expectedSymbols_nil]
      have hw : wellFormed l0 [] = l0 := by simp [wellFormed]
      rw [hw]
      by_cases hl : l0 = []
      · subst hl
        simp
      · by_cases hm : m0 = []
        · subst hm
          simp [hl]
        · have hlast : l0.getLast? ≠ some rbrace := fun hg =>
            h0.2 (List.mem_of_mem_getLast? hg)
          simp [hl, hm, hlast]
  | cons seg rest ih =>
    have hseg := hsegs seg (List.mem_cons_self _ _)
    obtain ⟨l1, segs1, hl1, hsegs1, hw, hr, he⟩ :=
      ih seg.2 hseg.2 (fun sg hsg => hsegs sg (List.mem_cons_of_mem _ hsg))
    refine ⟨l0, (seg.1, l1) :: segs1, h0, ?_, ?_, ?_, ?_⟩
    · intro sg hsg
      rcases List.mem_cons.1 hsg with rfl | hm
      · exact ⟨hseg.1, hl1⟩
      · exact hsegs1 sg hm
    · rw [wellFormed_cons, wellFormed_cons, ← hw]
      simp
    · intro table
      rw [rendered_cons, rendered_cons, hr]
      simp
    · rw [expectedSymbols_cons, expectedSymbols_cons, List.append_assoc,
        List.append_cancel_left_eq, he, wellFormed_cons]
      have hassoc : l0 ++ (lbrace :: seg.1 ++ rbrace :: wellFormed seg.2 rest) =
          (l0 ++ lbrace :: seg.1) ++ rbrace :: wellFormed seg.2 rest := by simp
      rw [hassoc, getLast?_append_cons]
      by_cases hW : wellFormed seg.2 rest = []
      · simp [hW]
      · simp [hW]

theorem wellFormed_append_placeholder (l0 m0 : JSString)
    (segs segs2 : List (JSString × JSString)) :
    wellFormed l0 segs ++ [lbrace, rbrace] ++ wellFormed m0 segs2 =
      wellFormed l0 (segs ++ ([], m0) :: segs2) := by
  simp [wellFormed]

theorem expectedSymbols_append_placeholder (l0 m0 : JSString)
    (segs segs2 : List (JSString × JSString)) :
    expectedSymbols l0 (segs ++ ([], m0) :: segs2) =
      expectedSymbols l0 segs ++ expectedSymbols m0 segs2 := by
  rw [expectedSymbols_eq l0 (segs ++ ([], m0) :: segs2), expectedSymbols_eq l0 segs,
    expectedSymbols_eq m0 segs2, expectedSymbols_nil m0, List.flatMap_append,
    List.flatMap_cons, List.filter_append, List.filter_append, List.append_assoc]
  by_cases hm : m0 = [] <;> simp [Symbol.text, hm]

/-- A well-formed pattern is empty or starts with an opening brace exactly when its first
literal is empty. -/
theorem wellFormed_head_iff (m0 : JSString) (segs2 : List (JSString × JSString))
    (hm0 : BraceFree m0) :
    (wellFormed m0 segs2 = [] ∨ (wellFormed m0 segs2).head? = some lbrace) ↔ m0 = [] := by
  cases m0 with
  | nil =>
    simp only [iff_true]
    cases segs2 with
    | nil => exact Or.inl (by simp [wellFormed])
    | cons seg rest => exact Or.inr (by simp [wellFormed])
  | cons c r =>
    simp only [wellFormed, List.cons_append, List.head?_cons, Option.some.injEq, reduceCtorEq,
      false_or, iff_false]
    intro hc
    exact ((braceFree_cons c r).1 hm0).1 hc

/-! ## Dependence on the table -/

theorem flatMap_congr_mem {α β : Type} (l : List α) (f g : α → List β)
    (h : ∀ x ∈ l, f x = g x) : l.flatMap f = l.flatMap g := by
  induction l with
  | nil => rfl
  | cons a r ih =>
    rw [List.flatMap_cons, List.flatMap_cons, h a (List.mem_cons_self _ _),
      ih (fun x hx => h x (List.mem_cons_of_mem _ hx))]

/-! ## Unparsing -/

theorem deleteEmptyPlaceholders_cons_of_ne {a : CodeUnit} (t : JSString) (h : a ≠ lbrace) :
    deleteEmptyPlaceholders (a :: t) = a :: deleteEmptyPlaceholders t := by
  cases t with
  | nil => simp [deleteEmptyPlaceholders]
  | cons b r => simp [deleteEmptyPlaceholders, h]

theorem deleteEmptyPlaceholders_pair (r : JSString) :
    deleteEmptyPlaceholders (lbrace :: rbrace :: r) = deleteEmptyPlaceholders r := by
  simp [deleteEmptyPlaceholders]

theorem deleteEmptyPlaceholders_lbrace_other {b : CodeUnit} (r : JSString) (h : b ≠ rbrace) :
    deleteEmptyPlaceholders (lbrace :: b :: r) = lbrace :: deleteEmptyPlaceholders (b :: r) := by
  rw [deleteEmptyPlaceholders]
  simp [h]

theorem deleteEmptyPlaceholders_run (l : JSString) (x : JSString) (h : lbrace ∉ l) :
    deleteEmptyPlaceholders (l ++ x) = l ++ deleteEmptyPlaceholders x := by
  induction l with
  | nil => rfl
  | cons a r ih =>
    have ha : a ≠ lbrace := fun hc => h (by simp [hc])
    have hr : lbrace ∉ r := fun hm => h (List.mem_cons_of_mem _ hm)
    rw [List.cons_append, deleteEmptyPlaceholders_cons_of_ne _ ha, ih hr, List.cons_append]

theorem withoutEmpty_cons (l0 : JSString) (seg : JSString × JSString)
    (rest : List (JSString × JSString)) :
    withoutEmpty l0 (seg :: rest) =
      l0 ++ ((if seg.1 = [] then [] else [lbrace] ++ seg.1 ++ [rbrace]) ++
        withoutEmpty seg.2 rest) := by
  simp [withoutEmpty]

/-- Deleting every `{}` from a well-formed pattern removes its empty placeholders. -/
theorem deleteEmptyPlaceholders_wellFormed (segs : List (JSString × JSString)) (l0 : JSString)
    (h0 : BraceFree l0) (h : ∀ seg ∈ segs, BraceFree seg.1 ∧ BraceFree seg.2) :
    deleteEmptyPlaceholders (wellFormed l0 segs) = withoutEmpty l0 segs := by
  induction segs generalizing l0 with
  | nil =>
    have := deleteEmptyPlaceholders_run l0 [] h0.1
    simpa [wellFormed, withoutEmpty, deleteEmptyPlaceholders] using this
  | cons seg rest ih =>
    have hseg := h seg (List.mem_cons_self _ _)
    have ih1 := ih seg.2 hseg.2 (fun sg hsg => h sg (List.mem_cons_of_mem _ hsg))
    have hrb : rbrace ≠ lbrace := by decide
    rw [wellFormed_cons, withoutEmpty_cons, deleteEmptyPlaceholders_run _ _ h0.1]
    cases hi : seg.1 with
    | nil =>
      rw [List.cons_append, List.nil_append, deleteEmptyPlaceholders_pair, ih1]
      simp
    | cons c i =>
      have hci : BraceFree (c :: i) := hi ▸ hseg.1
      have hc : c ≠ rbrace := ((braceFree_cons c i).1 hci).2.1
      rw [List.cons_append, List.cons_append, deleteEmptyPlaceholders_lbrace_other _ hc,
        ← List.cons_append, deleteEmptyPlaceholders_run _ _ hci.1,
        deleteEmptyPlaceholders_cons_of_ne _ hrb, ih1]
      simp

/-- A well-formed pattern without empty identifier is its own unparsed form. -/
theorem withoutEmpty_eq_wellFormed (l0 : JSString) (segs : List (JSString × JSString))
    (h : ∀ seg ∈ segs, seg.1 ≠ []) : withoutEmpty l0 segs = wellFormed l0 segs := by
  unfold withoutEmpty wellFormed
  congr 1
  apply flatMap_congr_mem
  intro seg hseg
  simp [h seg hseg]

theorem unparse_contribution_Literal (value : JSString) :
    (if (Symbol.Literal value).text = [] then []
      else unparse [Symbol.Literal value]) = value := by
  by_cases h : value = []
  · simp [Symbol.text, h]
  · simp [Symbol.text, h, unparse]

theorem unparse_contribution_Substitution (key : JSString) :
    (if (Symbol.Substitution key).text = [] then []
      else unparse [Symbol.Substitution key]) =
      if key = [] then [] else [lbrace] ++ key ++ [rbrace] := by
  by_cases h : key = []
  · simp [Symbol.text, h]
  · simp [Symbol.text, h, unparse]

theorem unparse_eq_flatMap (symbols : List Symbol) :
    unparse symbols = symbols.flatMap (fun sym => unparse [sym]) := by
  unfold unparse
  apply flatMap_congr_mem
  intro sym _
  simp

/-- Unparsing the symbols of a well-formed pattern gives the pattern without its empty
placeholders. -/
theorem unparse_expectedSymbols (l0 : JSString) (segs : List (JSString × JSString)) :
    unparse (expectedSymbols l0 segs) = withoutEmpty l0 segs := by
  have hsegs : ∀ sg : List (JSString × JSString),
      (sg.flatMap (fun seg => [Symbol.Substitution seg.1, Symbol.Literal seg.2])).flatMap
        (fun sym => if sym.text = [] then [] else unparse [sym]) =
      sg.flatMap
        (fun seg => (if seg.1 = [] then [] else [lbrace] ++ seg.1 ++ [rbrace]) ++ seg.2) := by
    intro sg
    induction sg with
    | nil => rfl
    | cons seg rest ih =>
      rw [List.flatMap_cons, List.flatMap_cons, List.flatMap_append, ih, List.flatMap_cons,
        List.flatMap_cons, List.flatMap_nil, unparse_contribution_Literal,
        unparse_contribution_Substitution]
      simp
  rw [unparse_eq_flatMap, expectedSymbols, flatMap_filter_text, List.flatMap_cons, hsegs,
    unparse_contribution_Literal, withoutEmpty]

/-! ## Symbols and group ids -/

theorem flatRuns_cons (r : Nat × Bool × JSString) (rs : List (Nat × Bool × JSString)) :
    flatRuns (r :: rs) = tagRun r.1 r.2.1 r.2.2 ++ flatRuns rs := by
  simp [flatRuns]

theorem flatRuns_runsOfSegs (segs : List (JSString × JSString)) (sid : Nat) :
    flatRuns (runsOfSegs sid segs) = tagSegs sid segs := by
  induction segs generalizing sid with
  | nil => rfl
  | cons seg rest ih => rw [runsOfSegs, flatRuns_cons, flatRuns_cons, ih, tagSegs]

theorem mem_runsOfSegs {segs : List (JSString × JSString)} {sid : Nat}
    {r : Nat × Bool × JSString} (h : r ∈ runsOfSegs sid segs) : sid < r.1 := by
  induction segs generalizing sid with
  | nil => simp [runsOfSegs] at h
  | cons seg rest ih =>
    simp only [runsOfSegs, List.mem_cons] at h
    rcases h with rfl | rfl | h
    · simp
    · simp
    · have := ih h; omega

theorem pairwise_runsOfSegs (segs : List (JSString × JSString)) (sid : Nat) :
    (runsOfSegs sid segs).Pairwise (fun a b => a.1 < b.1) := by
  induction segs generalizing sid with
  | nil => simp [runsOfSegs]
  | cons seg rest ih =>
    rw [runsOfSegs, List.pairwise_cons, List.pairwise_cons]
    refine ⟨?_, ?_, ih _⟩
    · intro b hb
      rcases List.mem_cons.1 hb with rfl | hb
      · simp
      · have := mem_runsOfSegs hb
        simp only
        omega
    · intro b hb
      exact mem_runsOfSegs hb

theorem mem_flatRuns {rs : List (Nat × Bool × JSString)} {c : CharObject}
    (h : c ∈ flatRuns rs) : ∃ r ∈ rs, c ∈ tagRun r.1 r.2.1 r.2.2 := by
  simpa [flatRuns] using h

theorem map_sid_tagRun (sid : Nat) (sub : Bool) (l : JSString) :
    (tagRun sid sub l).map CharObject.sid = List.replicate l.length sid := by
  induction l with
  | nil => rfl
  | cons c r ih =>
    rw [List.length_cons, List.replicate_succ, ← ih]
    rfl

theorem map_val_tagRun (sid : Nat) (sub : Bool) (l : JSString) :
    (tagRun sid sub l).map CharObject.val = l := by
  induction l with
  | nil => rfl
  | cons c r ih =>
    rw [tagRun, List.map_cons, List.map_cons]
    rw [tagRun] at ih
    rw [ih]

theorem any_sub_tagRun (sid : Nat) (sub : Bool) (l : JSString) (h : l ≠ []) :
    (tagRun sid sub l).any CharObject.sub = sub := by
  cases l with
  | nil => exact absurd rfl h
  | cons c r =>
    cases sub with
    | true => simp [tagRun]
    | false =>
      rw [Bool.eq_false_iff]
      intro hany
      rw [List.any_eq_true] at hany
      obtain ⟨x, hx, hsub⟩ := hany
      rw [mem_tagRun_sub hx] at hsub
      cases hsub

theorem dedup_replicate_append (n g : Nat) (x : List Nat) (h : g ∉ x) :
    (List.replicate (n + 1) g ++ x).dedup = g :: x.dedup := by
  induction n with
  | zero =>
    rw [List.replicate_succ, List.replicate_zero, List.cons_append, List.nil_append,
      List.dedup_cons_of_not_mem h]
  | succ n ih =>
    rw [List.replicate_succ, List.cons_append, List.dedup_cons_of_mem (by simp), ih]

/-- The distinct group ids of a list of runs with increasing group ids are the ids of
its non-empty runs. -/
theorem groupIds_flatRuns (rs : List (Nat × Bool × JSString))
    (h : rs.Pairwise (fun a b => a.1 < b.1)) :
    groupIds (flatRuns rs) =
      (rs.filter (fun r => decide (r.2.2 ≠ []))).map (fun r => r.1) := by
  induction rs with
  | nil => rfl
  | cons r rest ih =>
    rw [List.pairwise_cons] at h
    have ih1 := ih h.2
    unfold groupIds at ih1 ⊢
    rw [flatRuns_cons, List.map_append, map_sid_tagRun, List.filter_cons]
    by_cases ht : r.2.2 = []
    · simp only [ht, List.length_nil, List.replicate_zero, List.nil_append, ne_eq,
        not_true_eq_false, decide_False, Bool.false_eq_true, if_false]
      exact ih1
    · obtain ⟨n, hn⟩ := Nat.exists_eq_succ_of_ne_zero (fun h0 => ht (List.length_eq_zero.1 h0))
      have hnot : r.1 ∉ (flatRuns rest).map CharObject.sid := by
        intro hm
        obtain ⟨c, hc, hcs⟩ := List.mem_map.1 hm
        obtain ⟨r2, hr2, hc2⟩ := mem_flatRuns hc
        have h1 := h.1 r2 hr2
        have h2 := mem_tagRun hc2
        omega
      rw [hn, dedup_replicate_append n r.1 _ hnot, ih1]
      simp [ht]

/-- In a list of runs with increasing group ids, the characters with the group id of a
run are the characters of that run. -/
theorem filter_flatRuns (rs : List (Nat × Bool × JSString))
    (h : rs.Pairwise (fun a b => a.1 < b.1)) (r : Nat × Bool × JSString) (hr : r ∈ rs) :
    (flatRuns rs).filter (fun c => decide (c.sid = r.1)) = tagRun r.1 r.2.1 r.2.2 := by
  induction rs with
  | nil => simp at hr
  | cons r0 rest ih =>
    rw [List.pairwise_cons] at h
    rw [flatRuns_cons, List.filter_append]
    rcases List.mem_cons.1 hr with rfl | hm
    · have h1 : (tagRun r.1 r.2.1 r.2.2).filter (fun c => decide (c.sid = r.1)) =
          tagRun r.1 r.2.1 r.2.2 := by
        rw [List.filter_eq_self]
        intro c hc
        simp [mem_tagRun hc]
      have h2 : (flatRuns rest).filter (fun c => decide (c.sid = r.1)) = [] := by
        rw [List.filter_eq_nil_iff]
        intro c hc
        obtain ⟨r2, hr2, hc2⟩ := mem_flatRuns hc
        have h3 := h.1 r2 hr2
        have h4 := mem_tagRun hc2
        simp only [decide_eq_true_eq]
        omega
      rw [h1, h2, List.append_nil]
    · have h1 : (tagRun r0.1 r0.2.1 r0.2.2).filter (fun c => decide (c.sid = r.1)) = [] := by
        rw [List.filter_eq_nil_iff]
        intro c hc
        have h3 := h.1 r hm
        have h4 := mem_tagRun hc
        simp only [decide_eq_true_eq]
        omega
      rw [h1, List.nil_append, ih h.2 hm]

/-- The symbols of the non-empty runs, in terms of the group ids of the tagged
characters. -/
theorem symbols_flatRuns (rs : List (Nat × Bool × JSString))
    (h : rs.Pairwise (fun a b => a.1 < b.1)) :
    (groupIds (flatRuns rs)).map
        (fun g => _newSymbol (groupText (flatRuns rs) g) (groupFlag (flatRuns rs) g)) =
      (rs.filter (fun r => decide (r.2.2 ≠ []))).map (fun r => _newSymbol r.2.2 r.2.1) := by
  rw [groupIds_flatRuns rs h, List.map_map]
  apply List.map_congr_left
  intro r hr
  obtain ⟨hmem, hne⟩ := List.mem_filter.1 hr
  have hne2 : r.2.2 ≠ [] := by simpa using hne
  simp only [Function.comp, groupText, groupFlag]
  rw [filter_flatRuns rs h r hmem, map_val_tagRun, any_sub_tagRun _ _ _ hne2]

theorem symbols_runsOfSegs (segs : List (JSString × JSString)) (sid : Nat) :
    (runsOfSegs sid segs).map (fun r => _newSymbol r.2.2 r.2.1) =
      segs.flatMap (fun seg => [Symbol.Substitution seg.1, Symbol.Literal seg.2]) := by
  induction segs generalizing sid with
  | nil => rfl
  | cons seg rest ih =>
    rw [runsOfSegs, List.map_cons, List.map_cons, ih, List.flatMap_cons]
    rfl

theorem filter_map_newSymbol (rs : List (Nat × Bool × JSString)) :
    (rs.filter (fun r => decide (r.2.2 ≠ []))).map (fun r => _newSymbol r.2.2 r.2.1) =
      (rs.map (fun r => _newSymbol r.2.2 r.2.1)).filter (fun sym => decide (sym.text ≠ [])) := by
  rw [List.filter_map]
  congr 1
  apply List.filter_congr
  intro r _
  simp [text_newSymbol]

/-- The tagged characters of a well-formed pattern, as a list of runs with increasing
group ids whose symbols are the expected ones. -/
theorem tagged_as_runs (l0 : JSString) (segs : List (JSString × JSString)) :
    flatRuns ((0, false, l0) :: runsOfSegs 0 segs) = tagRun 0 false l0 ++ tagSegs 0 segs ∧
    ((0, false, l0) :: runsOfSegs 0 segs).Pairwise (fun a b => a.1 < b.1) ∧
    (((0, false, l0) :: runsOfSegs 0 segs).filter (fun r => decide (r.2.2 ≠ []))).map
      (fun r => _newSymbol r.2.2 r.2.1) = expectedSymbols l0 segs := by
  refine ⟨?_, ?_, ?_⟩
  · rw [flatRuns_cons, flatRuns_runsOfSegs]
  · rw [List.pairwise_cons]
    exact ⟨fun b hb => mem_runsOfSegs hb, pairwise_runsOfSegs segs 0⟩
  · rw [filter_map_newSymbol, List.map_cons, symbols_runsOfSegs]
    rfl

/-! ## Group ids and the braces between two characters -/

/-- The group counter advances by one for every brace read. -/
theorem scanLoop_symbol_id {a : List CodeUnit} {s s1 : ScanState}
    (h : scanLoop a s = Except.ok s1) : s1.symbol_id = s.symbol_id + (braces a).length := by
  induction a generalizing s with
  | nil =>
    simp only [scanLoop, Except.ok.injEq] at h
    subst h
    rfl
  | cons c r ih =>
    by_cases hc1 : c = lbrace
    · subst hc1
      cases hb : s.in_brace with
      | true =>
        have hs : scanStep s lbrace =
            Except.error ⟨nested_opening_brace_error_message, s.i⟩ := by
          rw [scanStep_lbrace]; simp [hb]
        rw [scanLoop_cons_error r hs] at h
        cases h
      | false =>
        have hs : scanStep s lbrace =
            Except.ok ⟨s.i + 1, true, s.symbol_id + 1, s.symbols_list⟩ := by
          rw [scanStep_lbrace]; simp [hb]
        rw [scanLoop_cons_ok r hs] at h
        rw [ih h, braces_cons_lbrace, List.length_cons]
        simp only
        omega
    · by_cases hc2 : c = rbrace
      · subst hc2
        cases hb : s.in_brace with
        | false =>
          have hs : scanStep s rbrace =
              Except.error ⟨unmatched_closing_brace_error_message, s.i⟩ := by
            rw [scanStep_rbrace]; simp [hb]
          rw [scanLoop_cons_error r hs] at h
          cases h
        | true =>
          have hs : scanStep s rbrace =
              Except.ok ⟨s.i + 1, false, s.symbol_id + 1, s.symbols_list⟩ := by
            rw [scanStep_rbrace]; simp [hb]
          rw [scanLoop_cons_ok r hs] at h
          rw [ih h, braces_cons_rbrace, List.length_cons]
          simp only
          omega
      · rw [scanLoop_cons_ok r (scanStep_other s hc1 hc2)] at h
        rw [ih h, braces_cons_other r hc1 hc2]

theorem content_append (a b : List CodeUnit) : content (a ++ b) = content a ++ content b := by
  simp [content]

/-- A string splits at its content character number `n`. -/
theorem split_at_content (p : List CodeUnit) (n : Nat) (h : n < (content p).length) :
    ∃ (a : List CodeUnit) (x : CodeUnit) (r : List CodeUnit), p = a ++ x :: r ∧
      x ≠ lbrace ∧ x ≠ rbrace ∧ (content a).length = n := by
  induction p generalizing n with
  | nil => simp [content] at h
  | cons c t ih =>
    by_cases hc1 : c = lbrace
    · subst hc1
      rw [content_cons_lbrace] at h
      obtain ⟨a, x, r, hp, hx1, hx2, hn⟩ := ih n h
      exact ⟨lbrace :: a, x, r, by rw [hp]; rfl, hx1, hx2, by rw [content_cons_lbrace, hn]⟩
    · by_cases hc2 : c = rbrace
      · subst hc2
        rw [content_cons_rbrace] at h
        obtain ⟨a, x, r, hp, hx1, hx2, hn⟩ := ih n h
        exact ⟨rbrace :: a, x, r, by rw [hp]; rfl, hx1, hx2, by rw [content_cons_rbrace, hn]⟩
      · cases n with
        | zero => exact ⟨[], c, t, rfl, hc1, hc2, rfl⟩
        | succ m =>
          rw [content_cons_other t hc1 hc2, List.length_cons] at h
          obtain ⟨a, x, r, hp, hx1, hx2, hn⟩ := ih m (by omega)
          exact ⟨c :: a, x, r, by rw [hp]; rfl, hx1, hx2,
            by rw [content_cons_other a hc1 hc2, List.length_cons, hn]⟩

/-- A string without content characters consists of braces. -/
theorem all_braces_of_content_nil {bs : List CodeUnit} (h : (content bs).length = 0) :
    (∀ b ∈ bs, b = lbrace ∨ b = rbrace) ∧ (braces bs).length = bs.length := by
  constructor
  · intro b hb
    have hnil : content bs = [] := List.length_eq_zero.1 h
    unfold content at hnil
    rw [List.filter_eq_nil_iff] at hnil
    have := hnil b hb
    simp only [ne_eq, decide_eq_true_eq, not_and, not_not] at this
    by_cases h1 : b = lbrace
    · exact Or.inl h1
    · exact Or.inr (this h1)
  · have := length_content_add_braces bs
    omega

/-- Two consecutive tagged characters stand for two content characters of the pattern
with only braces between them, and their group ids differ by the number of these
braces. -/
theorem consecutive_tagged (p : JSString) (l : List CharObject)
    (h : _convert_to_list p = Except.ok l) (n : Nat) (c d : CharObject)
    (hc : l[n]? = some c) (hd : l[n + 1]? = some d) :
    ∃ (a bs r : List CodeUnit), p = a ++ c.val :: (bs ++ d.val :: r) ∧
      (content a).length = n ∧ (∀ b ∈ bs, b = lbrace ∨ b = rbrace) ∧
      (c.val ≠ lbrace ∧ c.val ≠ rbrace) ∧ (d.val ≠ lbrace ∧ d.val ≠ rbrace) ∧
      d.sid = c.sid + bs.length := by
  obtain ⟨sf, hsf, _, hl⟩ := (convert_ok_iff p l).1 h
  obtain ⟨X, hX, hv⟩ := scanLoop_vals hsf
  have hlX : l = X := by rw [← hl, hX]; rfl
  have hlen : l.length = (content p).length := by rw [hlX, ← hv, List.length_map]
  have hn1 : n + 1 < l.length := (List.getElem?_eq_some_iff.1 hd).1
  obtain ⟨a, x, r0, hp, hx1, hx2, ha⟩ := split_at_content p n (by omega)
  have hr0 : 0 < (content r0).length := by
    have h1 : (content p).length = (content a).length + ((content r0).length + 1) := by
      rw [hp, content_append, content_cons_other r0 hx1 hx2, List.length_append,
        List.length_cons]
    omega
  obtain ⟨bs, y, r, hr, hy1, hy2, hbs⟩ := split_at_content r0 0 hr0
  obtain ⟨hall, hbl⟩ := all_braces_of_content_nil hbs
  have hsf2 := hsf
  rw [hp, hr] at hsf2
  obtain ⟨s1, hs1, hrest1⟩ := scanLoop_append_inv hsf2
  rw [scanLoop_cons_ok _ (scanStep_other s1 hx1 hx2)] at hrest1
  obtain ⟨s3, hs3, hrest3⟩ := scanLoop_append_inv hrest1
  rw [scanLoop_cons_ok _ (scanStep_other s3 hy1 hy2)] at hrest3
  obtain ⟨X1, hX1, hv1⟩ := scanLoop_vals hs1
  obtain ⟨Xb, hXb, hvb⟩ := scanLoop_vals hs3
  obtain ⟨X5, hX5, _⟩ := scanLoop_vals hrest3
  have hid := scanLoop_symbol_id hs3
  have hXbnil : Xb = [] := by
    have h0 : (Xb.map CharObject.val).length = 0 := by rw [hvb, hbs]
    rw [List.length_map] at h0
    exact List.length_eq_zero.1 h0
  have hX1len : X1.length = n := by rw [← ha, ← hv1, List.length_map]
  have hl2 : l = X1 ++ ⟨s1.symbol_id, x, s1.in_brace⟩ ::
      ⟨s3.symbol_id, y, s3.in_brace⟩ :: X5 := by
    rw [← hl, hX5]
    simp only [hXb, hXbnil, hX1, scanInit, List.nil_append, List.append_nil,
      List.append_assoc, List.singleton_append]
    rfl
  have hc2 : c = ⟨s1.symbol_id, x, s1.in_brace⟩ := by
    rw [hl2, ← hX1len, List.getElem?_append_right (Nat.le_refl _)] at hc
    simpa using hc.symm
  have hd2 : d = ⟨s3.symbol_id, y, s3.in_brace⟩ := by
    rw [hl2, ← hX1len, List.getElem?_append_right (Nat.le_succ _)] at hd
    simpa using hd.symm
  refine ⟨a, bs, r, ?_, ha, hall, ?_, ?_, ?_⟩
  · rw [hc2, hd2, hp, hr]
  · rw [hc2]; exact ⟨hx1, hx2⟩
  · rw [hd2]; exact ⟨hy1, hy2⟩
  · rw [hc2, hd2, hid, hbl]

/-! ## Rendering against JavaScript objects -/

theorem raw_ownProperty_eq_none (props : Raw.Props) (key : JSString)
    (h : ∀ e ∈ props, e.1 ≠ key) : Raw.ownProperty props key = none := by
  induction props with
  | nil => rfl
  | cons entry rest ih =>
    have h1 : entry.1 ≠ key := h entry (List.mem_cons_self _ _)
    simp [Raw.ownProperty, ih (fun e he => h e (List.mem_cons_of_mem _ he)), h1]

/-- A key found neither among the own properties nor on the prototype chain reads as
`undefined`. -/
theorem raw_propertyGet_absent (o : Raw.JSObject) (key : JSString)
    (h : ∀ props ∈ o, ∀ e ∈ props, e.1 ≠ key) :
    Raw.propertyGet o key = Raw.JSValue.plain Value.undefined := by
  induction o with
  | nil => rfl
  | cons props chain ih =>
    rw [Raw.propertyGet, raw_ownProperty_eq_none props key (h props (List.mem_cons_self _ _))]
    exact ih (fun ps hps => h ps (List.mem_cons_of_mem _ hps))

theorem raw_buildLoop_Literal (value : JSString) (rest : List Symbol) (table : Raw.TableArg)
    (retval : JSString) :
    Raw.buildLoop (Symbol.Literal value :: rest) table retval =
      Raw.buildLoop rest table (retval ++ value) := rfl

theorem raw_buildLoop_Substitution_plain (key : JSString) (rest : List Symbol)
    (o : Raw.JSObject) (retval : JSString) (v : Value)
    (h : Raw.propertyGet o key = Raw.JSValue.plain v) :
    Raw.buildLoop (Symbol.Substitution key :: rest) (Raw.TableArg.object o) retval =
      Raw.buildLoop rest (Raw.TableArg.object o) (retval ++ v.toStr) := by
  simp [Raw.buildLoop, Raw.getValue, Raw.toStr, h]

/-- The loop of `build` returns exactly when the table is an object on which every
identifier still to be read looks up to a value that converts to a string. -/
theorem raw_buildLoop_ok_iff (symbols : List Symbol) (table : Raw.TableArg)
    (retval : JSString) :
    (∃ out, Raw.buildLoop symbols table retval = Except.ok out) ↔
      ∀ key, Symbol.Substitution key ∈ symbols →
        ∃ o v, table = Raw.TableArg.object o ∧ Raw.propertyGet o key = Raw.JSValue.plain v := by
  induction symbols generalizing retval with
  | nil => simp [Raw.buildLoop]
  | cons sym rest ih =>
    cases sym with
    | Literal value =>
      rw [raw_buildLoop_Literal, ih]
      simp
    | Substitution k =>
      cases table with
      | undefined =>
        simp only [Raw.buildLoop, Raw.getValue, reduceCtorEq, exists_false, false_iff]
        intro hall
        obtain ⟨o, v, ho, _⟩ := hall k (List.mem_cons_self _ _)
        cases ho
      | null =>
        simp only [Raw.buildLoop, Raw.getValue, reduceCtorEq, exists_false, false_iff]
        intro hall
        obtain ⟨o, v, ho, _⟩ := hall k (List.mem_cons_self _ _)
        cases ho
      | object o =>
        cases hv : Raw.propertyGet o k with
        | plain v =>
          rw [raw_buildLoop_Substitution_plain k rest o retval v hv, ih]
          constructor
          · intro hall key hkey
            rcases List.mem_cons.1 hkey with heq | hmem
            · injection heq with heq
              subst heq
              exact ⟨o, v, rfl, hv⟩
            · exact hall key hmem
          · intro hall key hkey
            exact hall key (List.mem_cons_of_mem _ hkey)
        | unconvertible =>
          simp only [Raw.buildLoop, Raw.getValue, hv, Raw.toStr, reduceCtorEq, exists_false,
            false_iff]
          intro hall
          obtain ⟨o2, v, ho, hget⟩ := hall k (List.mem_cons_self _ _)
          injection ho with ho
          subst ho
          rw [hv] at hget
          cases hget

/-- The output of the loop of `build` on an object whose looked-up values convert. -/
theorem raw_buildLoop_eq (symbols : List Symbol) (o : Raw.JSObject) (retval : JSString)
    (h : ∀ key, Symbol.Substitution key ∈ symbols →
      ∃ v, Raw.propertyGet o key = Raw.JSValue.plain v) :
    Raw.buildLoop symbols (Raw.TableArg.object o) retval =
      Except.ok (retval ++ symbols.flatMap (Raw.contribution o)) := by
  induction symbols generalizing retval with
  | nil => simp [Raw.buildLoop]
  | cons sym rest ih =>
    have hrest : ∀ key, Symbol.Substitution key ∈ rest →
        ∃ v, Raw.propertyGet o key = Raw.JSValue.plain v :=
      fun key hkey => h key (List.mem_cons_of_mem _ hkey)
    cases sym with
    | Literal value =>
      rw [raw_buildLoop_Literal, ih _ hrest]
      simp [Raw.contribution]
    | Substitution k =>
      obtain ⟨v, hv⟩ := h k (List.mem_cons_self _ _)
      rw [raw_buildLoop_Substitution_plain k rest o retval v hv, ih _ hrest]
      simp [Raw.contribution, hv]

/-- On an object whose lookups are those of a table of the first model, `build` returns
what the first model computes. -/
theorem raw_build_eq_build (symbols : List Symbol) (o : Raw.JSObject) (table : Table)
    (h : ∀ key, Symbol.Substitution key ∈ symbols →
      Raw.propertyGet o key = Raw.JSValue.plain (table key)) :
    Raw.build symbols (Raw.TableArg.object o) = Except.ok (build symbols table) := by
  rw [Raw.build, raw_buildLoop_eq symbols o [] (fun key hkey => ⟨table key, h key hkey⟩),
    build_eq, List.nil_append]
  congr 1
  apply flatMap_congr_mem
  intro sym hsym
  cases sym with
  | Literal value => rfl
  | Substitution key => simp [Raw.contribution, h key hsym, Symbol.getValue]

theorem raw_patternBuild_of_compile {p : JSString} {symbols : List Symbol}
    (h : _compile p = Except.ok symbols) (table : Raw.TableArg) :
    Raw.patternBuild p table = Raw.build symbols table := by
  simp [Raw.patternBuild, h]

/-! ## The claims -/

/-- C1: for every well-formed pattern `l0 {i1} l1 ... {in} ln` with brace-free parts,
`_compile` returns exactly `Literal(l0), Substitution(i1), Literal(l1), ...,
Substitution(in), Literal(ln)` with the entries of empty text removed, in that order. -/
theorem C1_compile_wellFormed (l0 : JSString) (segs : List (JSString × JSString))
    (h0 : BraceFree l0) (h : ∀ seg ∈ segs, BraceFree seg.1 ∧ BraceFree seg.2) :
    _compile (wellFormed l0 segs) = Except.ok (expectedSymbols l0 segs) :=
  compile_wellFormed l0 segs h0 h

/-- The pattern `a{}{x}b` compiles to `Literal(a), Substitution(x), Literal(b)`. -/
theorem C1_compile_wellFormed_witness :
    (wellFormed (js "a") [(js "", js ""), (js "x", js "b")] = js "a\x7b\x7d\x7bx\x7db" ∧
      expectedSymbols (js "a") [(js "", js ""), (js "x", js "b")] =
        [Symbol.Literal (js "a"), Symbol.Substitution (js "x"), Symbol.Literal (js "b")]) ∧
    _compile (wellFormed (js "a") [(js "", js ""), (js "x", js "b")]) =
      Except.ok (expectedSymbols (js "a") [(js "", js ""), (js "x", js "b")]) :=
  ⟨by decide, C1_compile_wellFormed (js "a") [(js "", js ""), (js "x", js "b")]
    (by decide) (by decide)⟩

/-- C2: compiling `p` succeeds if and only if the subsequence of braces of `p` is a
repetition of the pair `{` `}`; in every other case it fails with an error carrying one
of the three messages. -/
theorem C2_compile_succeeds_iff_alternating (p : JSString) :
    ((∃ syms, _compile p = Except.ok syms) ↔
      ∃ n, braces p = (List.replicate n [lbrace, rbrace]).flatten) ∧
    ((¬ ∃ n, braces p = (List.replicate n [lbrace, rbrace]).flatten) ↔
      ∃ e, _compile p = Except.error e ∧
        (e.message = nested_opening_brace_error_message ∨
         e.message = unmatched_closing_brace_error_message ∨
         e.message = unclosed_opening_brace_error_message)) := by
  refine ⟨compile_ok_iff_braces p, ?_⟩
  rw [← compile_ok_iff_braces]
  constructor
  · intro h
    cases hc : _compile p with
    | ok syms => exact absurd ⟨syms, hc⟩ h
    | error e => exact ⟨e, rfl, compile_error_message hc⟩
  · rintro ⟨e, he, _⟩ ⟨syms, hs⟩
    rw [he] at hs
    cases hs

/-- C3: compiling `p` fails with `Nested opening brace` at position `i` if and only if
`p[i]` is `{`, the scanner reads `p[0..i)` without error and is inside a placeholder
after it; and the pattern `{a{b}}` fails so at position 2. -/
theorem C3_nested_opening_brace :
    (∀ (p : JSString) (i : Nat),
      _compile p = Except.error ⟨nested_opening_brace_error_message, i⟩ ↔
        p[i]? = some lbrace ∧
          ∃ s, scanLoop (p.take i) scanInit = Except.ok s ∧ s.in_brace = true) ∧
    _compile (js "\x7ba\x7bb\x7d\x7d") =
      Except.error ⟨nested_opening_brace_error_message, 2⟩ := by
  refine ⟨?_, by decide⟩
  intro p i
  rw [compile_error_iff, convert_error_iff, scanLoop_error_at]
  constructor
  · rintro (⟨c, s, hj, hl, hstep⟩ | ⟨s, _, _, he⟩)
    · rcases scanStep_error hstep with ⟨hc, hb, _⟩ | ⟨_, _, he⟩
      · subst hc
        exact ⟨hj, s, hl, hb⟩
      · injection he with hm _
        exact absurd hm messages_distinct.1
    · injection he with hm _
      exact absurd hm messages_distinct.2.1
  · rintro ⟨hj, s, hl, hb⟩
    refine Or.inl ⟨lbrace, s, hj, hl, ?_⟩
    have hi := scanLoop_ok_index hl
    have hlt : i < p.length := (List.getElem?_eq_some_iff.1 hj).1
    rw [scanStep_lbrace]
    simp only [hb, if_true, scanInit, List.length_take] at hi ⊢
    rw [hi, Nat.zero_add, Nat.min_eq_left (Nat.le_of_lt hlt)]

/-- C4: compiling `p` fails with `Unmatched closing brace` at position `i` if and only
if `p[i]` is `}`, the scanner reads `p[0..i)` without error and is not inside a
placeholder after it; and the pattern `text }` fails so at position 5. -/
theorem C4_unmatched_closing_brace :
    (∀ (p : JSString) (i : Nat),
      _compile p = Except.error ⟨unmatched_closing_brace_error_message, i⟩ ↔
        p[i]? = some rbrace ∧
          ∃ s, scanLoop (p.take i) scanInit = Except.ok s ∧ s.in_brace = false) ∧
    _compile (js "text \x7d") =
      Except.error ⟨unmatched_closing_brace_error_message, 5⟩ := by
  refine ⟨?_, by decide⟩
  intro p i
  rw [compile_error_iff, convert_error_iff, scanLoop_error_at]
  constructor
  · rintro (⟨c, s, hj, hl, hstep⟩ | ⟨s, _, _, he⟩)
    · rcases scanStep_error hstep with ⟨_, _, he⟩ | ⟨hc, hb, _⟩
      · injection he with hm _
        exact absurd hm.symm messages_distinct.1
      · subst hc
        exact ⟨hj, s, hl, hb⟩
    · injection he with hm _
      exact absurd hm messages_distinct.2.2
  · rintro ⟨hj, s, hl, hb⟩
    refine Or.inl ⟨rbrace, s, hj, hl, ?_⟩
    have hi := scanLoop_ok_index hl
    have hlt : i < p.length := (List.getElem?_eq_some_iff.1 hj).1
    rw [scanStep_rbrace]
    simp only [hb, Bool.false_eq_true, if_false, scanInit, List.length_take] at hi ⊢
    rw [hi, Nat.zero_add, Nat.min_eq_left (Nat.le_of_lt hlt)]

/-- C5: compiling `p` fails with `Unclosed opening brace` if and only if the scanner
reads all of `p` without error and is inside a placeholder at the end; the reported
position is then the length of `p`; and the pattern `text {x` fails so at position 7. -/
theorem C5_unclosed_opening_brace :
    (∀ (p : JSString) (pos : Nat),
      _compile p = Except.error ⟨unclosed_opening_brace_error_message, pos⟩ ↔
        (∃ s, scanLoop p scanInit = Except.ok s ∧ s.in_brace = true) ∧ pos = p.length) ∧
    _compile (js "text \x7bx") =
      Except.error ⟨unclosed_opening_brace_error_message, 7⟩ := by
  refine ⟨?_, by decide⟩
  intro p pos
  rw [compile_error_iff, convert_error_iff, scanLoop_error_at]
  constructor
  · rintro (⟨c, s, hj, hl, hstep⟩ | ⟨s, hl, hb, he⟩)
    · rcases scanStep_error hstep with ⟨_, _, he⟩ | ⟨_, _, he⟩
      · injection he with hm _
        exact absurd hm.symm messages_distinct.2.1
      · injection he with hm _
        exact absurd hm.symm messages_distinct.2.2
    · injection he with _ hp
      have hi := scanLoop_ok_index hl
      refine ⟨⟨s, hl, hb⟩, ?_⟩
      rw [hp, hi]
      simp [scanInit]
  · rintro ⟨⟨s, hl, hb⟩, hp⟩
    refine Or.inr ⟨s, hl, hb, ?_⟩
    have hi := scanLoop_ok_index hl
    rw [hp, hi]
    simp [scanInit]

/-- C6: for every well-formed pattern `l0 {i1} l1 ... {in} ln` with brace-free parts and
every table `t`, `Pattern(p).build(t)` is `l0 + v1 + l1 + ... + vn + ln`, where `vk` is
the string form of `t[ik]` when `ik` is non-empty and the empty string otherwise. -/
theorem C6_build_wellFormed (l0 : JSString) (segs : List (JSString × JSString))
    (table : Table) (h0 : BraceFree l0)
    (h : ∀ seg ∈ segs, BraceFree seg.1 ∧ BraceFree seg.2) :
    patternBuild (wellFormed l0 segs) table =
      Except.ok (l0 ++ segs.flatMap
        (fun seg => (if seg.1 = [] then [] else (table seg.1).toStr) ++ seg.2)) := by
  rw [patternBuild_of_compile (compile_wellFormed l0 segs h0 h), build_expectedSymbols]

/-- The pattern `Hello, {name}!` built with the table mapping `name` to `World` gives `Hello, World!`. -/
theorem C6_build_wellFormed_witness :
    (wellFormed (js "Hello, ") [(js "name", js "!")] = js "Hello, \x7bname\x7d!" ∧
      js "Hello, " ++ [(js "name", js "!")].flatMap
        (fun seg => (if seg.1 = [] then []
          else (tableOf [(js "name", Value.str (js "World"))] seg.1).toStr) ++ seg.2) =
        js "Hello, World!") ∧
    patternBuild (wellFormed (js "Hello, ") [(js "name", js "!")])
        (tableOf [(js "name", Value.str (js "World"))]) =
      Except.ok (js "Hello, " ++ [(js "name", js "!")].flatMap
        (fun seg => (if seg.1 = [] then []
          else (tableOf [(js "name", Value.str (js "World"))] seg.1).toStr) ++ seg.2)) :=
  ⟨by decide, C6_build_wellFormed (js "Hello, ") [(js "name", js "!")]
    (tableOf [(js "name", Value.str (js "World"))]) (by decide) (by decide)⟩

/-- C7: for every brace-free `p` and every table `t`, compiling `p` succeeds and
`Pattern(p).build(t) = p`; the empty pattern has zero symbols and a non-empty
brace-free `p` compiles to the single symbol `Literal(p)`. -/
theorem C7_braceFree_pattern (p : JSString) (table : Table) (h : BraceFree p) :
    _compile p = Except.ok (if p = [] then [] else [Symbol.Literal p]) ∧
    patternBuild p table = Except.ok p ∧
    _compile (js "") = Except.ok [] ∧ patternBuild (js "") table = Except.ok (js "") := by
  have hc := compile_wellFormed p [] h (by simp)
  have hb := build_expectedSymbols p [] table
  have hw : wellFormed p [] = p := by simp [wellFormed]
  rw [hw] at hc
  simp only [List.flatMap_nil, List.append_nil] at hb
  refine ⟨?_, ?_, rfl, rfl⟩
  · rw [hc]
    by_cases hp : p = [] <;> simp [expectedSymbols, Symbol.text, hp]
  · rw [patternBuild_of_compile hc, hb]

/-- The pattern `text` compiles to one literal and builds `text`. -/
theorem C7_braceFree_pattern_witness :
    _compile (js "text") = Except.ok (if js "text" = [] then [] else [Symbol.Literal (js "text")]) ∧
    patternBuild (js "text") emptyTable = Except.ok (js "text") ∧
    _compile (js "") = Except.ok [] ∧ patternBuild (js "") emptyTable = Except.ok (js "") :=
  C7_braceFree_pattern (js "text") emptyTable (by decide)

/-- C8: for non-empty brace-free `a` and `b`, compiling `{a}{b}` yields exactly the two
symbols `Substitution(a)`, `Substitution(b)`, and `build(t)` is the string form of
`t[a]` followed by the string form of `t[b]`. -/
theorem C8_adjacent_placeholders (a b : JSString) (table : Table)
    (ha : BraceFree a) (hb : BraceFree b) (ha0 : a ≠ []) (hb0 : b ≠ []) :
    _compile ([lbrace] ++ a ++ [rbrace] ++ [lbrace] ++ b ++ [rbrace]) =
      Except.ok [Symbol.Substitution a, Symbol.Substitution b] ∧
    patternBuild ([lbrace] ++ a ++ [rbrace] ++ [lbrace] ++ b ++ [rbrace]) table =
      Except.ok ((table a).toStr ++ (table b).toStr) := by
  have hnil : BraceFree [] := by decide
  have hsegs : ∀ seg ∈ [(a, ([] : JSString)), (b, [])], BraceFree seg.1 ∧ BraceFree seg.2 := by
    intro seg hseg
    simp only [List.mem_cons, List.mem_singleton, List.not_mem_nil, or_false] at hseg
    rcases hseg with rfl | rfl
    · exact ⟨ha, hnil⟩
    · exact ⟨hb, hnil⟩
  have hc := compile_wellFormed [] [(a, []), (b, [])] hnil hsegs
  have hbd := build_expectedSymbols [] [(a, []), (b, [])] table
  have hw : wellFormed [] [(a, []), (b, [])] =
      [lbrace] ++ a ++ [rbrace] ++ [lbrace] ++ b ++ [rbrace] := by
    simp [wellFormed]
  have he : expectedSymbols [] [(a, []), (b, [])] =
      [Symbol.Substitution a, Symbol.Substitution b] := by
    simp [expectedSymbols, Symbol.text, ha0, hb0]
  rw [hw, he] at hc
  rw [he] at hbd
  refine ⟨hc, ?_⟩
  rw [patternBuild_of_compile hc, hbd]
  simp [ha0, hb0]

/-- The pattern `{a}{b}` built with the table mapping `a` to `1` and `b` to `2` gives `12`. -/
theorem C8_adjacent_placeholders_witness :
    ([lbrace] ++ js "a" ++ [rbrace] ++ [lbrace] ++ js "b" ++ [rbrace] =
        js "\x7ba\x7d\x7bb\x7d" ∧
      (tableOf [(js "a", Value.str (js "1")), (js "b", Value.str (js "2"))] (js "a")).toStr ++
        (tableOf [(js "a", Value.str (js "1")), (js "b", Value.str (js "2"))] (js "b")).toStr =
        js "12") ∧
    (_compile ([lbrace] ++ js "a" ++ [rbrace] ++ [lbrace] ++ js "b" ++ [rbrace]) =
      Except.ok [Symbol.Substitution (js "a"), Symbol.Substitution (js "b")] ∧
    patternBuild ([lbrace] ++ js "a" ++ [rbrace] ++ [lbrace] ++ js "b" ++ [rbrace])
        (tableOf [(js "a", Value.str (js "1")), (js "b", Value.str (js "2"))]) =
      Except.ok
        ((tableOf [(js "a", Value.str (js "1")), (js "b", Value.str (js "2"))] (js "a")).toStr ++
        (tableOf [(js "a", Value.str (js "1")), (js "b", Value.str (js "2"))] (js "b")).toStr)) :=
  ⟨by decide, C8_adjacent_placeholders (js "a") (js "b")
    (tableOf [(js "a", Value.str (js "1")), (js "b", Value.str (js "2"))])
    (by decide) (by decide) (by decide) (by decide)⟩

/-- C9, as stated, fails: on the empty table `{}` the identifier `constructor`, which
`{}` does not define itself, is not rendered as the absent value but as the inherited
function; and `build` throws when the table holds a value that cannot be converted to a
string, and when the table is `undefined`. -/
theorem C9_counterexample :
    ((Raw.emptyObject = [[], Raw.objectPrototype] ∧
        Raw.ownProperty [] (js "constructor") = none) ∧
      Raw.patternBuild (js "\x7bconstructor\x7d") (Raw.TableArg.object Raw.emptyObject) =
        Except.ok (js "function Object() \x7b [native code] \x7d") ∧
      js "function Object() \x7b [native code] \x7d" ≠ js "undefined") ∧
    Raw.patternBuild (js "\x7ba\x7d")
        (Raw.TableArg.object (Raw.objectLiteral [(js "a", Raw.JSValue.unconvertible)])) =
      Except.error Raw.Thrown.conversion ∧
    Raw.patternBuild (js "\x7ba\x7d") Raw.TableArg.undefined =
      Except.error Raw.Thrown.typeError := by
  decide

/-- C9, amended: for every pattern that compiles, `build(t)` returns a string exactly
when `t` is an object on which every identifier of the pattern looks up, among the own
properties and then along the prototype chain, to a value whose conversion to a string
completes; the string is then the in-order concatenation of the literals and of the
string forms of these values; an identifier found neither among the own properties nor
on the prototype chain resolves to `undefined`, rendered as the text `undefined`; an
identifier the object does not define itself resolves to what its prototype chain
gives; and `{a}{b}` built with the empty table `{}` returns `undefinedundefined`. -/
theorem C9_build_succeeds_iff (p : JSString) (symbols : List Symbol) (table : Raw.TableArg)
    (h : _compile p = Except.ok symbols) :
    ((∃ out, Raw.patternBuild p table = Except.ok out) ↔
      ∀ key, Symbol.Substitution key ∈ symbols →
        ∃ o v, table = Raw.TableArg.object o ∧
          Raw.propertyGet o key = Raw.JSValue.plain v) ∧
    (∀ o, table = Raw.TableArg.object o →
      (∀ key, Symbol.Substitution key ∈ symbols →
        ∃ v, Raw.propertyGet o key = Raw.JSValue.plain v) →
      Raw.patternBuild p table = Except.ok (symbols.flatMap (Raw.contribution o))) ∧
    (∀ o key, table = Raw.TableArg.object o → (∀ props ∈ o, ∀ e ∈ props, e.1 ≠ key) →
      Raw.getValue (Symbol.Substitution key) table =
        Except.ok (Raw.JSValue.plain Value.undefined) ∧
      Raw.contribution o (Symbol.Substitution key) = js "undefined") ∧
    (∀ own chain key, table = Raw.TableArg.object (own :: chain) →
      (∀ e ∈ own, e.1 ≠ key) →
      Raw.getValue (Symbol.Substitution key) table = Except.ok (Raw.propertyGet chain key)) ∧
    Raw.patternBuild (js "\x7ba\x7d\x7bb\x7d") (Raw.TableArg.object Raw.emptyObject) =
      Except.ok (js "undefinedundefined") := by
  refine ⟨?_, ?_, ?_, ?_, by decide⟩
  · rw [raw_patternBuild_of_compile h, Raw.build]
    exact raw_buildLoop_ok_iff symbols table []
  · intro o ho hall
    subst ho
    rw [raw_patternBuild_of_compile h, Raw.build, raw_buildLoop_eq symbols o [] hall,
      List.nil_append]
  · intro o key ho habsent
    subst ho
    have hget := raw_propertyGet_absent o key habsent
    constructor
    · simp [Raw.getValue, hget]
    · simp [Raw.contribution, hget, Value.toStr]
  · intro own chain key ho hown
    subst ho
    simp [Raw.getValue, Raw.propertyGet, raw_ownProperty_eq_none own key hown]

/-- The pattern `{a}, {b}` built with the table `{b: "2"}` returns `undefined, 2`. -/
theorem C9_build_succeeds_iff_witness :
    (Raw.patternBuild (js "\x7ba\x7d, \x7bb\x7d")
        (Raw.TableArg.object
          (Raw.objectLiteral [(js "b", Raw.JSValue.plain (Value.str (js "2")))])) =
      Except.ok (js "undefined, 2")) ∧
    ((∃ out, Raw.patternBuild (js "\x7ba\x7d, \x7bb\x7d")
        (Raw.TableArg.object
          (Raw.objectLiteral [(js "b", Raw.JSValue.plain (Value.str (js "2")))])) =
        Except.ok out) ↔
      ∀ key, Symbol.Substitution key ∈
          [Symbol.Substitution (js "a"), Symbol.Literal (js ", "),
            Symbol.Substitution (js "b")] →
        ∃ o v, Raw.TableArg.object
            (Raw.objectLiteral [(js "b", Raw.JSValue.plain (Value.str (js "2")))]) =
            Raw.TableArg.object o ∧
          Raw.propertyGet o key = Raw.JSValue.plain v) :=
  ⟨by decide,
   (C9_build_succeeds_iff (js "\x7ba\x7d, \x7bb\x7d")
      [Symbol.Substitution (js "a"), Symbol.Literal (js ", "), Symbol.Substitution (js "b")]
      (Raw.TableArg.object
        (Raw.objectLiteral [(js "b", Raw.JSValue.plain (Value.str (js "2")))]))
      (by decide)).1⟩

/-- C10: for every pattern that compiles, every symbol of the compiled sequence has
non-empty text; the empty pattern produces zero symbols. -/
theorem C10_symbols_nonempty (p : JSString) (symbols : List Symbol)
    (h : _compile p = Except.ok symbols) :
    (∀ sym ∈ symbols, sym.text ≠ []) ∧ _compile (js "") = Except.ok [] := by
  refine ⟨?_, rfl⟩
  obtain ⟨l, _, hl⟩ := (compile_ok_iff p symbols).1 h
  rw [← hl]
  exact compileLoop_text_ne_nil l [] [] (by simp)

/-- The symbols of `a{}b{c}` all have non-empty text. -/
theorem C10_symbols_nonempty_witness :
    (∀ sym ∈ [Symbol.Literal (js "a"), Symbol.Literal (js "b"), Symbol.Substitution (js "c")],
      sym.text ≠ []) ∧ _compile (js "") = Except.ok [] :=
  C10_symbols_nonempty (js "a\x7b\x7db\x7bc\x7d")
    [Symbol.Literal (js "a"), Symbol.Literal (js "b"), Symbol.Substitution (js "c")] (by decide)

/-- C11: for every pattern that compiles, no symbol of the compiled sequence contains
`{` or `}` in its text. -/
theorem C11_symbols_braceFree (p : JSString) (symbols : List Symbol)
    (h : _compile p = Except.ok symbols) : ∀ sym ∈ symbols, BraceFree sym.text := by
  obtain ⟨l0, segs, hl0, hsegs, _, hsym⟩ := compile_ok_decompose h
  intro sym hmem
  rw [hsym] at hmem
  rcases mem_expectedSymbols hmem with rfl | ⟨seg, hseg, rfl | rfl⟩
  · exact hl0
  · exact (hsegs seg hseg).1
  · exact (hsegs seg hseg).2

/-- The symbols of `a{b}c` contain no brace. -/
theorem C11_symbols_braceFree_witness :
    BraceFree (Symbol.Literal (js "a")).text ∧ BraceFree (Symbol.Substitution (js "b")).text ∧
      BraceFree (Symbol.Literal (js "c")).text :=
  ⟨C11_symbols_braceFree (js "a\x7bb\x7dc")
      [Symbol.Literal (js "a"), Symbol.Substitution (js "b"), Symbol.Literal (js "c")]
      (by decide) (Symbol.Literal (js "a")) (by decide),
   C11_symbols_braceFree (js "a\x7bb\x7dc")
      [Symbol.Literal (js "a"), Symbol.Substitution (js "b"), Symbol.Literal (js "c")]
      (by decide) (Symbol.Substitution (js "b")) (by decide),
   C11_symbols_braceFree (js "a\x7bb\x7dc")
      [Symbol.Literal (js "a"), Symbol.Substitution (js "b"), Symbol.Literal (js "c")]
      (by decide) (Symbol.Literal (js "c")) (by decide)⟩

/-- C12: compiling `{}` succeeds, the scanner emits no tagged character for it, the
compiled symbol sequence is empty, and `build(t)` is the empty string for every table
`t`, including a table that defines a value for the empty identifier. -/
theorem C12_empty_placeholder (table : Table) :
    _convert_to_list (js "\x7b\x7d") = Except.ok [] ∧
    _compile (js "\x7b\x7d") = Except.ok [] ∧
    patternBuild (js "\x7b\x7d") table = Except.ok (js "") ∧
    patternBuild (js "\x7b\x7d") (tableOf [(js "", Value.str (js "x"))]) = Except.ok (js "") := by
  refine ⟨by decide, by decide, ?_, by decide⟩
  exact patternBuild_of_compile (show _compile (js "\x7b\x7d") = Except.ok [] by decide) table

/-- C13, as stated, fails: `a` and `b` compile, `a{}b` compiles to the two literals
`a`, `b`, and `ab` compiles to the single literal `ab`. -/
theorem C13_counterexample :
    _compile (js "a") = Except.ok [Symbol.Literal (js "a")] ∧
    _compile (js "b") = Except.ok [Symbol.Literal (js "b")] ∧
    _compile (js "a" ++ js "\x7b\x7d" ++ js "b") =
      Except.ok [Symbol.Literal (js "a"), Symbol.Literal (js "b")] ∧
    _compile (js "a" ++ js "b") = Except.ok [Symbol.Literal (js "ab")] ∧
    _compile (js "a" ++ js "\x7b\x7d" ++ js "b") ≠ _compile (js "a" ++ js "b") := by
  decide

/-- C13, amended: for all `p` and `q` that compile, compiling `p{}q` succeeds and
produces the symbols of `p` followed by the symbols of `q`; this is the symbol sequence
of `p + q` exactly when `p` is empty or ends with `}`, or `q` is empty or starts with
`{`. -/
theorem C13_empty_placeholder_between (p q : JSString) (sp sq : List Symbol)
    (hp : _compile p = Except.ok sp) (hq : _compile q = Except.ok sq) :
    _compile (p ++ [lbrace, rbrace] ++ q) = Except.ok (sp ++ sq) ∧
    (_compile (p ++ [lbrace, rbrace] ++ q) = _compile (p ++ q) ↔
      (p = [] ∨ p.getLast? = some rbrace ∨ q = [] ∨ q.head? = some lbrace)) := by
  obtain ⟨l0, segs, hl0, hsegs, hpw, hsp⟩ := compile_ok_decompose hp
  obtain ⟨m0, segs2, hm0, hsegs2, hqw, hsq⟩ := compile_ok_decompose hq
  have hall : ∀ seg ∈ segs ++ ([], m0) :: segs2, BraceFree seg.1 ∧ BraceFree seg.2 := by
    intro seg hseg
    rcases List.mem_append.1 hseg with h | h
    · exact hsegs seg h
    · rcases List.mem_cons.1 h with rfl | h2
      · exact ⟨braceFree_nil, hm0⟩
      · exact hsegs2 seg h2
  have h1 : _compile (p ++ [lbrace, rbrace] ++ q) = Except.ok (sp ++ sq) := by
    rw [hpw, hqw, wellFormed_append_placeholder, compile_wellFormed l0 _ hl0 hall,
      expectedSymbols_append_placeholder, hsp, hsq]
  refine ⟨h1, ?_⟩
  obtain ⟨l1, segs1, hl1, hsegs1, hw, _, he⟩ :=
    wellFormed_append m0 segs2 segs l0 hl0 hsegs hm0 hsegs2
  have h2 : _compile (p ++ q) = Except.ok (expectedSymbols l1 segs1) := by
    rw [hpw, hqw, hw, compile_wellFormed l1 segs1 hl1 hsegs1]
  have hhead := wellFormed_head_iff m0 segs2 hm0
  rw [h1, h2, ← hpw, ← hsp, ← hsq] at *
  rw [← hqw] at hhead
  rw [← hhead] at he
  rw [← he]
  constructor
  · intro h
    injection h with h
    exact h.symm
  · intro h
    rw [h]

/-- The patterns `{a}` and `b`: `{a}{}b` and `{a}b` compile to the same symbols. -/
theorem C13_empty_placeholder_between_witness :
    _compile (js "\x7ba\x7d" ++ [lbrace, rbrace] ++ js "b") =
      Except.ok ([Symbol.Substitution (js "a")] ++ [Symbol.Literal (js "b")]) ∧
    (_compile (js "\x7ba\x7d" ++ [lbrace, rbrace] ++ js "b") =
        _compile (js "\x7ba\x7d" ++ js "b") ↔
      (js "\x7ba\x7d" = [] ∨ (js "\x7ba\x7d").getLast? = some rbrace ∨ js "b" = [] ∨
        (js "b").head? = some lbrace)) :=
  C13_empty_placeholder_between (js "\x7ba\x7d") (js "b") [Symbol.Substitution (js "a")]
    [Symbol.Literal (js "b")] (by decide) (by decide)

/-- C14: on every pattern `p` the scanner accepts, the values of the tagged characters
are, in order, the characters of `p` with every brace removed, their number is the
length of `p` minus its number of braces, and the tagged character of each non-brace
character carries the group counter and the flag of the scanner state reached on the
characters before it. -/
theorem C14_tagged_characters (p : JSString) (l : List CharObject)
    (h : _convert_to_list p = Except.ok l) :
    l.map CharObject.val = content p ∧
    l.length = p.length - (braces p).length ∧
    ∀ (j : Nat) (c : CodeUnit), p[j]? = some c → c ≠ lbrace → c ≠ rbrace →
      ∃ s, scanLoop (p.take j) scanInit = Except.ok s ∧
        l[(content (p.take j)).length]? = some ⟨s.symbol_id, c, s.in_brace⟩ := by
  obtain ⟨sf, hsf, _, hl⟩ := (convert_ok_iff p l).1 h
  obtain ⟨X, hX, hv⟩ := scanLoop_vals hsf
  have hlX : l = X := by rw [← hl, hX]; rfl
  refine ⟨by rw [hlX, hv], ?_, ?_⟩
  · have h1 := length_content_add_braces p
    have h2 : l.length = (content p).length := by rw [hlX, ← hv, List.length_map]
    omega
  · intro j c hj hc1 hc2
    obtain ⟨hlt, hget⟩ := List.getElem?_eq_some_iff.1 hj
    have hp : p = p.take j ++ c :: p.drop (j + 1) := by
      rw [← hget, ← List.drop_eq_getElem_cons hlt, List.take_append_drop]
    have hsf2 := hsf
    rw [hp] at hsf2
    obtain ⟨s1, hs1, hrest⟩ := scanLoop_append_inv hsf2
    rw [scanLoop_cons_ok _ (scanStep_other s1 hc1 hc2)] at hrest
    obtain ⟨X1, hX1, hv1⟩ := scanLoop_vals hs1
    obtain ⟨X3, hX3, _⟩ := scanLoop_vals hrest
    refine ⟨s1, hs1, ?_⟩
    have hlen : (content (p.take j)).length = X1.length := by rw [← hv1, List.length_map]
    have hl2 : l = X1 ++ ⟨s1.symbol_id, c, s1.in_brace⟩ :: X3 := by
      rw [← hl, hX3]
      simp only [hX1, scanInit, List.nil_append, List.append_assoc, List.singleton_append]
    rw [hlen, hl2, List.getElem?_append_right (Nat.le_refl _)]
    simp

/-- The tagged characters of `a{b}c`. -/
theorem C14_tagged_characters_witness :
    [(⟨0, 97, false⟩ : CharObject), ⟨1, 98, true⟩, ⟨2, 99, false⟩].map CharObject.val =
      content (js "a\x7bb\x7dc") ∧
    [(⟨0, 97, false⟩ : CharObject), ⟨1, 98, true⟩, ⟨2, 99, false⟩].length =
      (js "a\x7bb\x7dc").length - (braces (js "a\x7bb\x7dc")).length ∧
    ∀ (j : Nat) (c : CodeUnit), (js "a\x7bb\x7dc")[j]? = some c → c ≠ lbrace → c ≠ rbrace →
      ∃ s, scanLoop ((js "a\x7bb\x7dc").take j) scanInit = Except.ok s ∧
        [(⟨0, 97, false⟩ : CharObject), ⟨1, 98, true⟩,
          ⟨2, 99, false⟩][(content ((js "a\x7bb\x7dc").take j)).length]? =
            some ⟨s.symbol_id, c, s.in_brace⟩ :=
  C14_tagged_characters (js "a\x7bb\x7dc")
    [⟨0, 97, false⟩, ⟨1, 98, true⟩, ⟨2, 99, false⟩] (by decide)

/-- C15, as stated, fails: in `a{}{}b` the two tagged characters are consecutive and
their group ids are 0 and 4. -/
theorem C15_counterexample :
    _convert_to_list (js "a\x7b\x7d\x7b\x7db") =
      Except.ok [⟨0, 97, false⟩, ⟨4, 98, false⟩] ∧
    ¬ ∀ l, _convert_to_list (js "a\x7b\x7d\x7b\x7db") = Except.ok l →
      l.Chain' (fun c d => d.sid = c.sid ∨ d.sid = c.sid + 1 ∨ d.sid = c.sid + 2) := by
  refine ⟨by decide, fun h => ?_⟩
  have h1 := h [⟨0, 97, false⟩, ⟨4, 98, false⟩] (by decide)
  rw [List.chain'_pair] at h1
  revert h1
  decide

/-- C15, amended: on every pattern `p` the scanner accepts, two consecutive tagged
characters stand for two non-brace characters of `p` with only braces between them, and
the group id of the later one exceeds the group id of the earlier one by exactly the
number of these braces; so it equals the earlier one or exceeds it by exactly one or
two if and only if at most two braces stand between the two characters. -/
theorem C15_group_id_steps (p : JSString) (l : List CharObject)
    (h : _convert_to_list p = Except.ok l) (n : Nat) (c d : CharObject)
    (hc : l[n]? = some c) (hd : l[n + 1]? = some d) :
    ∃ (a bs r : List CodeUnit), p = a ++ c.val :: (bs ++ d.val :: r) ∧
      (content a).length = n ∧ (∀ b ∈ bs, b = lbrace ∨ b = rbrace) ∧
      (c.val ≠ lbrace ∧ c.val ≠ rbrace) ∧ (d.val ≠ lbrace ∧ d.val ≠ rbrace) ∧
      d.sid = c.sid + bs.length ∧
      ((d.sid = c.sid ∨ d.sid = c.sid + 1 ∨ d.sid = c.sid + 2) ↔ bs.length ≤ 2) := by
  obtain ⟨a, bs, r, hp, ha, hall, hcv, hdv, hsid⟩ := consecutive_tagged p l h n c d hc hd
  refine ⟨a, bs, r, hp, ha, hall, hcv, hdv, hsid, ?_⟩
  rw [hsid]
  omega

/-- In `a{}b` the two tagged characters have two braces between them and the group ids
0 and 2. -/
theorem C15_group_id_steps_witness :
    ∃ (a bs r : List CodeUnit),
      js "a\x7b\x7db" = a ++ (⟨0, 97, false⟩ : CharObject).val ::
        (bs ++ (⟨2, 98, false⟩ : CharObject).val :: r) ∧
      (content a).length = 0 ∧ (∀ b ∈ bs, b = lbrace ∨ b = rbrace) ∧
      ((⟨0, 97, false⟩ : CharObject).val ≠ lbrace ∧
        (⟨0, 97, false⟩ : CharObject).val ≠ rbrace) ∧
      ((⟨2, 98, false⟩ : CharObject).val ≠ lbrace ∧
        (⟨2, 98, false⟩ : CharObject).val ≠ rbrace) ∧
      (⟨2, 98, false⟩ : CharObject).sid = (⟨0, 97, false⟩ : CharObject).sid + bs.length ∧
      (((⟨2, 98, false⟩ : CharObject).sid = (⟨0, 97, false⟩ : CharObject).sid ∨
        (⟨2, 98, false⟩ : CharObject).sid = (⟨0, 97, false⟩ : CharObject).sid + 1 ∨
        (⟨2, 98, false⟩ : CharObject).sid = (⟨0, 97, false⟩ : CharObject).sid + 2) ↔
          bs.length ≤ 2) :=
  C15_group_id_steps (js "a\x7b\x7db") [⟨0, 97, false⟩, ⟨2, 98, false⟩] (by decide) 0
    ⟨0, 97, false⟩ ⟨2, 98, false⟩ (by decide) (by decide)

/-- C16: for every pattern the scanner accepts, the compiled symbols correspond one to
one and in order to the distinct group ids of the tagged characters: the symbol of a
group id has as text the in-order concatenation of the values of the characters with
that id, and is a substitution exactly when those characters are flagged as placeholder
content, which all of them are or none. -/
theorem C16_symbols_by_group_id (p : JSString) (l : List CharObject)
    (h : _convert_to_list p = Except.ok l) :
    _compile p = Except.ok
      ((groupIds l).map (fun g => _newSymbol (groupText l g) (groupFlag l g))) ∧
    (groupIds l).Pairwise (fun g1 g2 => g1 < g2) ∧
    (∀ g, g ∈ groupIds l ↔ ∃ c ∈ l, c.sid = g) ∧
    (∀ c ∈ l, c.sub = groupFlag l c.sid) := by
  obtain ⟨l0, segs, hl0, hsegs, hp, hl⟩ := convert_ok_decompose h
  obtain ⟨hflat, hsorted, hsyms⟩ := tagged_as_runs l0 segs
  rw [← hflat] at hl
  subst hl
  refine ⟨?_, ?_, ?_, ?_⟩
  · rw [symbols_flatRuns _ hsorted, hsyms, hp]
    exact compile_wellFormed l0 segs hl0 hsegs
  · rw [groupIds_flatRuns _ hsorted, List.pairwise_map]
    exact List.Pairwise.filter _ hsorted
  · intro g
    simp [groupIds, List.mem_dedup]
  · intro c hc
    obtain ⟨r, hr, hcr⟩ := mem_flatRuns hc
    have hne : r.2.2 ≠ [] := by
      intro hempty
      rw [hempty] at hcr
      simp [tagRun] at hcr
    rw [groupFlag, mem_tagRun hcr, filter_flatRuns _ hsorted r hr, any_sub_tagRun _ _ _ hne,
      mem_tagRun_sub hcr]

/-- The tagged characters of `ab{c}`: the group ids are 0 and 1. -/
theorem C16_symbols_by_group_id_witness :
    _compile (js "ab\x7bc\x7d") = Except.ok
      ((groupIds [⟨0, 97, false⟩, ⟨0, 98, false⟩, ⟨1, 99, true⟩]).map
        (fun g => _newSymbol (groupText [⟨0, 97, false⟩, ⟨0, 98, false⟩, ⟨1, 99, true⟩] g)
          (groupFlag [⟨0, 97, false⟩, ⟨0, 98, false⟩, ⟨1, 99, true⟩] g))) ∧
    (groupIds [⟨0, 97, false⟩, ⟨0, 98, false⟩, ⟨1, 99, true⟩]).Pairwise
      (fun g1 g2 => g1 < g2) ∧
    (∀ g, g ∈ groupIds [⟨0, 97, false⟩, ⟨0, 98, false⟩, ⟨1, 99, true⟩] ↔
      ∃ c ∈ [(⟨0, 97, false⟩ : CharObject), ⟨0, 98, false⟩, ⟨1, 99, true⟩], c.sid = g) ∧
    (∀ c ∈ [(⟨0, 97, false⟩ : CharObject), ⟨0, 98, false⟩, ⟨1, 99, true⟩],
      c.sub = groupFlag [⟨0, 97, false⟩, ⟨0, 98, false⟩, ⟨1, 99, true⟩] c.sid) :=
  C16_symbols_by_group_id (js "ab\x7bc\x7d")
    [⟨0, 97, false⟩, ⟨0, 98, false⟩, ⟨1, 99, true⟩] (by decide)

/-- C17: on every pattern the scanner accepts, the group ids of the tagged characters
never decrease along the sequence, a character is flagged as placeholder content
exactly when its group id is odd, and characters of one group id carry the same flag. -/
theorem C17_group_ids_sorted_and_parity (p : JSString) (l : List CharObject)
    (h : _convert_to_list p = Except.ok l) :
    l.Pairwise (fun c d => c.sid ≤ d.sid) ∧
    (∀ c ∈ l, (c.sub = true ↔ c.sid % 2 = 1)) ∧
    (∀ c ∈ l, ∀ d ∈ l, c.sid = d.sid → c.sub = d.sub) := by
  obtain ⟨l0, segs, _, _, _, hl⟩ := convert_ok_decompose h
  subst hl
  refine ⟨pairwise_tagged l0 segs, fun c hc => mem_tagged_parity hc, ?_⟩
  intro c hc d hd hcd
  have h1 := mem_tagged_parity hc
  have h2 := mem_tagged_parity hd
  rw [hcd] at h1
  cases hcs : c.sub <;> cases hds : d.sub <;> simp_all

/-- The tagged characters of `a{b}{}c`. -/
theorem C17_group_ids_sorted_and_parity_witness :
    [(⟨0, 97, false⟩ : CharObject), ⟨1, 98, true⟩, ⟨4, 99, false⟩].Pairwise
      (fun c d => c.sid ≤ d.sid) ∧
    (∀ c ∈ [(⟨0, 97, false⟩ : CharObject), ⟨1, 98, true⟩, ⟨4, 99, false⟩],
      (c.sub = true ↔ c.sid % 2 = 1)) ∧
    (∀ c ∈ [(⟨0, 97, false⟩ : CharObject), ⟨1, 98, true⟩, ⟨4, 99, false⟩],
      ∀ d ∈ [(⟨0, 97, false⟩ : CharObject), ⟨1, 98, true⟩, ⟨4, 99, false⟩],
      c.sid = d.sid → c.sub = d.sub) :=
  C17_group_ids_sorted_and_parity (js "a\x7bb\x7d\x7b\x7dc")
    [⟨0, 97, false⟩, ⟨1, 98, true⟩, ⟨4, 99, false⟩] (by decide)

/-- C18: for all `p` and `q` that compile and every table `t`, `p + q` compiles and
`Pattern(p + q).build(t)` is `Pattern(p).build(t)` followed by `Pattern(q).build(t)`;
the symbols of `p + q` need not be those of `p` followed by those of `q`, as for `a`
and `b`. -/
theorem C18_build_append (p q : JSString) (sp sq : List Symbol) (table : Table)
    (hp : _compile p = Except.ok sp) (hq : _compile q = Except.ok sq) :
    (∃ spq, _compile (p ++ q) = Except.ok spq) ∧
    patternBuild (p ++ q) table = Except.ok (build sp table ++ build sq table) ∧
    _compile (js "a" ++ js "b") ≠
      Except.ok ([Symbol.Literal (js "a")] ++ [Symbol.Literal (js "b")]) := by
  obtain ⟨l0, segs, hl0, hsegs, hpw, hsp⟩ := compile_ok_decompose hp
  obtain ⟨m0, segs2, hm0, hsegs2, hqw, hsq⟩ := compile_ok_decompose hq
  obtain ⟨l1, segs1, hl1, hsegs1, hw, hr, _⟩ :=
    wellFormed_append m0 segs2 segs l0 hl0 hsegs hm0 hsegs2
  have h2 : _compile (p ++ q) = Except.ok (expectedSymbols l1 segs1) := by
    rw [hpw, hqw, hw, compile_wellFormed l1 segs1 hl1 hsegs1]
  refine ⟨⟨_, h2⟩, ?_, by decide⟩
  rw [patternBuild_of_compile h2, build_expectedSymbols_rendered, hr, hsp, hsq,
    build_expectedSymbols_rendered, build_expectedSymbols_rendered]

/-- The patterns `x{a}y` and `z{b}` with a table that defines `a` and `b`. -/
theorem C18_build_append_witness :
    (∃ spq, _compile (js "x\x7ba\x7dy" ++ js "z\x7bb\x7d") = Except.ok spq) ∧
    patternBuild (js "x\x7ba\x7dy" ++ js "z\x7bb\x7d")
        (tableOf [(js "a", Value.str (js "1")), (js "b", Value.str (js "2"))]) =
      Except.ok
        (build [Symbol.Literal (js "x"), Symbol.Substitution (js "a"), Symbol.Literal (js "y")]
          (tableOf [(js "a", Value.str (js "1")), (js "b", Value.str (js "2"))]) ++
        build [Symbol.Literal (js "z"), Symbol.Substitution (js "b")]
          (tableOf [(js "a", Value.str (js "1")), (js "b", Value.str (js "2"))])) ∧
    _compile (js "a" ++ js "b") ≠
      Except.ok ([Symbol.Literal (js "a")] ++ [Symbol.Literal (js "b")]) :=
  C18_build_append (js "x\x7ba\x7dy") (js "z\x7bb\x7d")
    [Symbol.Literal (js "x"), Symbol.Substitution (js "a"), Symbol.Literal (js "y")]
    [Symbol.Literal (js "z"), Symbol.Substitution (js "b")]
    (tableOf [(js "a", Value.str (js "1")), (js "b", Value.str (js "2"))])
    (by decide) (by decide)

/-- C19: for every pattern that compiles and all tables that agree on every key of a
substitution of the compiled pattern, `build` gives the same output; the entries under
other keys never influence it. -/
theorem C19_build_depends_on_named_keys (p : JSString) (symbols : List Symbol)
    (t1 t2 : Table) (h : _compile p = Except.ok symbols)
    (hagree : ∀ key, Symbol.Substitution key ∈ symbols → t1 key = t2 key) :
    patternBuild p t1 = patternBuild p t2 := by
  rw [patternBuild_of_compile h t1, patternBuild_of_compile h t2, build_eq, build_eq]
  congr 1
  apply flatMap_congr_mem
  intro sym hsym
  cases sym with
  | Literal value => rfl
  | Substitution key =>
    simp only [Symbol.getValue]
    rw [hagree key hsym]

/-- The pattern `x{a}y` with two tables that agree on `a` and differ on `b`. -/
theorem C19_build_depends_on_named_keys_witness :
    patternBuild (js "x\x7ba\x7dy")
        (tableOf [(js "a", Value.str (js "1")), (js "b", Value.str (js "2"))]) =
      patternBuild (js "x\x7ba\x7dy")
        (tableOf [(js "b", Value.str (js "3")), (js "a", Value.str (js "1"))]) :=
  C19_build_depends_on_named_keys (js "x\x7ba\x7dy")
    [Symbol.Literal (js "x"), Symbol.Substitution (js "a"), Symbol.Literal (js "y")]
    (tableOf [(js "a", Value.str (js "1")), (js "b", Value.str (js "2"))])
    (tableOf [(js "b", Value.str (js "3")), (js "a", Value.str (js "1"))])
    (by decide)
    (by
      intro key hkey
      simp only [List.mem_cons, List.mem_singleton, reduceCtorEq, Symbol.Substitution.injEq,
        List.not_mem_nil, or_false, false_or] at hkey
      subst hkey
      decide)

/-- C20: for every pattern `p` that compiles, unparsing the compiled symbols gives `p`
with every occurrence of `{}` deleted, and gives `p` itself when `p` does not contain
the substring `{}`. -/
theorem C20_unparse_compile (p : JSString) (symbols : List Symbol)
    (h : _compile p = Except.ok symbols) :
    unparse symbols = deleteEmptyPlaceholders p ∧
    (¬ [lbrace, rbrace] <:+: p → unparse symbols = p) := by
  obtain ⟨l0, segs, hl0, hsegs, hp, hsym⟩ := compile_ok_decompose h
  rw [hsym, hp, unparse_expectedSymbols, deleteEmptyPlaceholders_wellFormed segs l0 hl0 hsegs]
  refine ⟨rfl, fun hno => ?_⟩
  apply withoutEmpty_eq_wellFormed
  intro seg hseg hempty
  exact hno (infix_of_empty_identifier hseg hempty)

/-- The pattern `a{b}c` has no empty placeholder and unparses to itself, and deleting
`{}` from it changes nothing. -/
theorem C20_unparse_compile_witness :
    (deleteEmptyPlaceholders (js "a\x7bb\x7dc") = js "a\x7bb\x7dc" ∧
      deleteEmptyPlaceholders (js "a\x7b\x7db\x7bc\x7d") = js "ab\x7bc\x7d") ∧
    unparse [Symbol.Literal (js "a"), Symbol.Substitution (js "b"), Symbol.Literal (js "c")] =
      deleteEmptyPlaceholders (js "a\x7bb\x7dc") ∧
    unparse [Symbol.Literal (js "a"), Symbol.Substitution (js "b"), Symbol.Literal (js "c")] =
      js "a\x7bb\x7dc" :=
  ⟨by decide,
   (C20_unparse_compile (js "a\x7bb\x7dc")
      [Symbol.Literal (js "a"), Symbol.Substitution (js "b"), Symbol.Literal (js "c")]
      (by decide)).1,
   (C20_unparse_compile (js "a\x7bb\x7dc")
      [Symbol.Literal (js "a"), Symbol.Substitution (js "b"), Symbol.Literal (js "c")]
      (by decide)).2 (by decide)⟩

end Pattern
